import Mathlib

/-!
Verification development for `maldefender/cfg_builder.py`, the control-flow
graph construction pipeline: listing normalization, instruction decoding,
control-flow visiting, block assembly and per-block feature extraction.

The Python dictionaries (`dict` / `OrderedDict`) are embedded as
insertion-ordered association lists over `Int` keys; object mutation becomes
explicit state passing.  External collaborators that are not part of this
repository's source tree (`instructions.py`, `dp_utils.py`) are modelled from
the spec where indicated.
-/

/-! ## Association-list primitives (Python dict semantics) -/

/-- Dictionary lookup: first binding with the given key. -/
def lookupA {α : Type} : List (Int × α) → Int → Option α
  | [], _ => none
  | (a, x) :: rest, k => if a = k then some x else lookupA rest k

/-- Dictionary assignment `d[k] = v`: replaces the value in place if the key
is present (keeping insertion order), otherwise appends a new binding. -/
def setAssoc {α : Type} : List (Int × α) → Int → α → List (Int × α)
  | [], k, v => [(k, v)]
  | (a, x) :: rest, k, v => if a = k then (a, v) :: rest else (a, x) :: setAssoc rest k v

/-- In-place mutation of the value stored under a key (`d[k].field = ...`):
no effect when the key is absent. -/
def modifyAssoc {α : Type} : List (Int × α) → Int → (α → α) → List (Int × α)
  | [], _, _ => []
  | (a, x) :: rest, k, f => if a = k then (a, f x) :: rest else (a, x) :: modifyAssoc rest k f

/-! ## Python string primitives -/

/-- Splitting loop on characters: `cur` holds the current field reversed. -/
def pySplitChars : List Char → List Char → List String
  | [], cur => if cur = [] then [] else [String.mk cur.reverse]
  | c :: rest, cur =>
    if c.isWhitespace then
      if cur = [] then pySplitChars rest []
      else String.mk cur.reverse :: pySplitChars rest []
    else pySplitChars rest (c :: cur)

/-- Python `str.split()` with no argument: split on whitespace runs,
discarding empty fields. -/
def pySplit (s : String) : List String :=
  pySplitChars s.toList []

/-- Trailing characters from the given set removed (list-of-chars level). -/
def rstripChars (l : List Char) (cs : List Char) : List Char :=
  (l.reverse.dropWhile (fun c => c ∈ cs)).reverse

/-- Python `s.rstrip(cs)`: strip any trailing characters from the set `cs`. -/
def pyRstrip (s : String) (cs : List Char) : String :=
  String.mk (rstripChars s.toList cs)

/-- Substring containment on character lists (`s.find(sub) != -1`). -/
def listContainsSub (s sub : List Char) : Bool :=
  (List.range (s.length + 1)).any fun i => sub.isPrefixOf (s.drop i)

/-- Python `s.find(sub) != -1` on strings. -/
def subStr (s sub : String) : Bool :=
  listContainsSub s.toList sub.toList

/-- Python `s.startswith(p)`. -/
def pyStartsWith (s p : String) : Bool :=
  p.toList.isPrefixOf s.toList

/-- Python `s.endswith(c)` for a single character. -/
def pyEndsWithChar (s : String) (c : Char) : Bool :=
  s.toList.getLast? = some c

/-- Python `' '.join(l)`. -/
def joinWithSpace : List String → String
  | [] => ""
  | [d] => d
  | d :: rest => d ++ " " ++ joinWithSpace rest

/-- Value of one hexadecimal digit, if valid. -/
def hexDigitVal (c : Char) : Option Nat :=
  if '0' ≤ c ∧ c ≤ '9' then some (c.toNat - '0'.toNat)
  else if 'a' ≤ c ∧ c ≤ 'f' then some (c.toNat - 'a'.toNat + 10)
  else if 'A' ≤ c ∧ c ≤ 'F' then some (c.toNat - 'A'.toNat + 10)
  else none

/-- Python `int(s, 16)` restricted to plain hexadecimal digit strings; `none`
models the `ValueError` raised on anything else. -/
def pyIntHex (s : String) : Option Int :=
  match s.toList with
  | [] => none
  | l => l.foldl (fun acc c =>
      match acc, hexDigitVal c with
      | some v, some d => some (v * 16 + d)
      | _, _ => none) (some 0)

/-- Upper-case hexadecimal digit character. -/
def hexDigitChar (n : Nat) : Char :=
  if n = 0 then '0' else if n = 1 then '1' else if n = 2 then '2'
  else if n = 3 then '3' else if n = 4 then '4' else if n = 5 then '5'
  else if n = 6 then '6' else if n = 7 then '7' else if n = 8 then '8'
  else if n = 9 then '9' else if n = 10 then 'A' else if n = 11 then 'B'
  else if n = 12 then 'C' else if n = 13 then 'D' else if n = 14 then 'E'
  else 'F'

/-- Fuel-driven loop for upper-case hexadecimal rendering. -/
def natHexGo : Nat → Nat → List Char → List Char
  | 0, _, acc => acc
  | fuel + 1, n, acc =>
    if n < 16 then hexDigitChar n :: acc
    else natHexGo fuel (n / 16) (hexDigitChar (n % 16) :: acc)

/-- Python `'%X' % n` for a natural number. -/
def pyHexUpper (n : Nat) : String :=
  String.mk (natHexGo (n + 1) n [])

/-! ## Sentinels and the decoded instruction record -/

/-- Modelled from the spec: `dp_utils.FakeCalleeAddr`, the reserved sentinel
address standing for an unknown / extern call target; a reserved value outside
every decoded address range (decoded addresses are parsed from hexadecimal
text and are nonnegative), modeled as a distinct negative integer. -/
def FakeCalleeAddr : Int := -2

/-- Modelled from the spec: `dp_utils.InvalidAddr`, the reserved sentinel
address standing for an unresolved / out-of-range branch target; a distinct
negative integer. -/
def InvalidAddr : Int := -1

/-- Modelled from the spec: the control-flow category assigned by the external
decoder, one of calling / conditional-jump / unconditional-jump / end-of-flow
/ default; `inst.accept(visitor)` dispatches on it. -/
inductive InstCategory : Type where
  | calling
  | conditionalJump
  | unconditionalJump
  | endHere
  | defaultCat
deriving DecidableEq

/-- Modelled from the spec: the decoded instruction record produced by the
external `instructions.py` collaborator.  `addrInInst` stands for the method
`findAddrInInst()` (the branch/call target resolved from the instruction
text, `FakeCalleeAddr` when unresolvable), and the three feature lists stand
for `getOperandFeatures()`, `getOperatorFeatures()` and
`getSpecialCharFeatures()`.  The mutable flags follow the spec's data model:
`start` marks a block entry, `fallThrough` defaults to true (control falls
into the next instruction unless a handler clears it), `branchTo` is unset
until a handler records a target, `call` marks call-type transfers. -/
structure Instruction : Type where
  address : Int
  size : Int := 0
  operand : String := ""
  category : InstCategory := InstCategory.defaultCat
  addrInInst : Int := FakeCalleeAddr
  start : Bool := false
  fallThrough : Bool := true
  branchTo : Option Int := none
  call : Bool := false
  bytes : List String := []
  rawStrs : List String := []
  operandFeatures : List Int := []
  operatorFeatures : List Int := []
  specialCharFeatures : List Int := []
deriving DecidableEq

/-- Modelled from the spec: the `isn.Instruction(addr, operand=name)`
constructor call used for auxiliary/synthetic instructions. -/
def mkInstruction (addr : Int) (operandName : String) : Instruction :=
  { address := addr, operand := operandName }

/-! ## `Block` and its feature extraction (`class Block`) -/

/-- Block of the control flow graph (`class Block`). -/
structure Block : Type where
  startAddr : Int := -1
  endAddr : Int := -1
  instList : List Instruction := []
  edgeList : List Int := []
deriving DecidableEq

namespace Block

/-- Embedding of `Block.oneGram`, feature index 11-13. -/
def oneGram : List String := ["00", "FF", "??"]

/-- Embedding of `Block.fourGram`, feature index 14-23. -/
def fourGram : List String :=
  ["????????", "04000000", "5DC30000", "F0F0F001", "00100000",
   "00F0F000", "0D2F0600", "5DC38BFF", "8BFF558B", "840D2F06"]

/-- Embedding of `Block.oneGram2Idx` (the listed byte values are pairwise distinct, so the
dict comprehension is the index of the first occurrence). -/
def oneGram2Idx (s : String) : Option Nat := oneGram.indexOf? s

/-- Embedding of `Block.fourGram2Idx`. -/
def fourGram2Idx (s : String) : Option Nat := fourGram.indexOf? s

/-- Embedding of `Block.instDim`.  The operand-type, operator-type and special-character
alphabets live in the external `instructions.py`; their sizes are the
parameters `dOp`, `dOpr`, `dSp`. -/
def instDim (dOp dOpr dSp : Nat) : Nat :=
  dOp + dOpr + oneGram.length + fourGram.length + dSp

/-- Embedding of `Block.bytesFromInsts`: the byte tokens of all instructions concatenated,
each with trailing newline / `+` characters stripped. -/
def bytesFromInsts (b : Block) : List String :=
  b.instList.foldl (fun byteList inst =>
    byteList ++ inst.bytes.map (fun byte => pyRstrip byte ['\n', '+'])) []

/-- Embedding of `Block.get1gramFeatures`: histogram of single byte tokens over the
`oneGram` alphabet. -/
def get1gramFeatures (b : Block) : List Int :=
  b.bytesFromInsts.foldl (fun features byte =>
    let byte := pyRstrip byte ['\n', '+']
    match oneGram2Idx byte with
    | some i => features.set i (features.getD i 0 + 1)
    | none => features) (List.replicate oneGram.length 0)

/-- The inner `check4Gram()` closure: bump the histogram entry of the joined
4-token window when it is a known 4-gram. -/
def check4Gram (window : List String) (features : List Int) : List Int :=
  match fourGram2Idx (String.join window) with
  | some i => features.set i (features.getD i 0 + 1)
  | none => features

/-- The sliding-window loop of `get4gramFeatures`: the window holds the last
up-to-4 tokens; once full it is checked and advanced one token at a time, and
the final full window is checked after the loop. -/
def gram4Loop : List String → List String → List Int → List Int
  | [], window, features =>
    if window.length = 4 then check4Gram window features else features
  | byte :: rest, window, features =>
    if window.length = 4 then
      gram4Loop rest (window.drop 1 ++ [byte]) (check4Gram window features)
    else
      gram4Loop rest (window ++ [byte]) features

/-- Embedding of `Block.get4gramFeatures`. -/
def get4gramFeatures (b : Block) : List Int :=
  gram4Loop b.bytesFromInsts [] (List.replicate fourGram.length 0)

/-- Embedding of `Block.getAttributes`.  The accumulator mirrors `instAttr` (elementwise
vector sum, `np.zeros((1, instDim))` start) together with the `added` flag
that makes the n-gram histograms contribute only once, with the first
instruction; the two structural scalars are appended at the end.  Feature
values are integer counts, so `Int` stands in for the numpy floats. -/
def getAttributes (dOp dOpr dSp : Nat) (b : Block) : List Int :=
  let r := b.instList.foldl (fun (acc : List Int × Bool) inst =>
    let attr := inst.operandFeatures ++ inst.operatorFeatures
    let attr :=
      if acc.2 = false then attr ++ b.get1gramFeatures ++ b.get4gramFeatures
      else attr ++ List.replicate (oneGram.length + fourGram.length) 0
    let attr := attr ++ inst.specialCharFeatures
    (List.zipWith (fun x y => x + y) acc.1 attr, true))
    (List.replicate (instDim dOp dOpr dSp) 0, false)
  r.1 ++ [(b.edgeList.length : Int), (b.instList.length : Int)]

end Block

/-! ## Segment filtering and text-segment extraction -/

/-- Embedding of `ControlFlowGraphBuilder.addrInCodeSegment`: return the address part of a
segment-labelled token when its label starts with one of the fixed prefixes,
else the sentinel string. -/
def addrInCodeSegment (seg : String) : String :=
  let segNames : List String :=
    [".text:", "CODE:", "UPX1:", "seg000:", "qmoyiu:",
     ".UfPOkc:", ".brick:", ".icode:", "seg001:",
     ".Much:", "iuagwws:", ".idata:", ".edata:",
     ".IqR:", ".data:", ".bss:", ".idata:", ".rsrc:",
     ".tls:", ".reloc:", ".unpack:", "_1:", ".Upack:", ".mF:"]
  if segNames.any (fun p => pyStartsWith seg p) then
    match (List.range seg.toList.length).filter
        (fun i => seg.toList.getD i ' ' = ':') |>.getLast? with
    | some colonIdx => String.mk (seg.toList.drop (colonIdx + 1))
    | none => String.mk (seg.toList.drop (seg.toList.length - 8))
  else "NotInCodeSeg"

/-- The byte-token pattern of `indexOfInst`:
two characters from `[A-F0-9?]` with an optional trailing `+`. -/
def isByteTok (s : String) : Bool :=
  let hexq := fun c : Char =>
    (decide (('A' ≤ c ∧ c ≤ 'F') ∨ ('0' ≤ c ∧ c ≤ '9')) || c = '?')
  match s.toList with
  | [a, b] => hexq a && hexq b
  | [a, b, p] => hexq a && hexq b && p = '+'
  | _ => false

/-- Embedding of `ControlFlowGraphBuilder.appendRawBytes`: record a raw byte token under
the parsed address; `none` models the `ValueError` of `int(addrStr, 16)` on a
non-hexadecimal address token. -/
def appendRawBytes (m : List (Int × List String)) (addrStr : String) (byte : String) :
    Option (List (Int × List String)) :=
  (pyIntHex addrStr).map fun addr =>
    match lookupA m addr with
    | some bs => setAssoc m addr (bs ++ [byte])
    | none => setAssoc m addr [byte]

/-- The scanning loop of `ControlFlowGraphBuilder.indexOfInst`: consume the
leading byte tokens, recording each, and return the index of the first
non-byte token together with the updated byte map. -/
def indexOfInstGo (m : List (Int × List String)) (addrStr : String) :
    List String → Nat → Option (Nat × List (Int × List String))
  | [], idx => some (idx, m)
  | e :: rest, idx =>
    if isByteTok e then
      match appendRawBytes m addrStr e with
      | some m2 => indexOfInstGo m2 addrStr rest (idx + 1)
      | none => none
    else some (idx, m)

/-- Embedding of `ControlFlowGraphBuilder.indexOfComment`: index of the first token
containing `;`, or the length when there is none. -/
def indexOfComment (decodedElems : List String) : Nat :=
  match decodedElems.findIdx? (fun e => subStr e (";")) with
  | some i => i
  | none => decodedElems.length

/-- State threaded through `extractTextSeg`: the line-number-keyed normalized
text, the per-address raw byte tokens and the running line number. -/
structure ExtractState : Type where
  text : List (Nat × String) := []
  addr2Bytes : List (Int × List String) := []
  lineNum : Nat := 1
deriving DecidableEq

/-- One iteration of the `extractTextSeg` loop on a raw listing line:
empty lines and lines outside the recognized segments are skipped; for the
rest, leading byte tokens are absorbed into the byte map and the tokens up to
the first comment become the recorded instruction tail.  `none` models an
uncaught exception. -/
def extractLine (st : ExtractState) (line : String) : Option ExtractState :=
  match pySplit line with
  | [] => some { st with lineNum := st.lineNum + 1 }
  | seg :: rest =>
    let addr := addrInCodeSegment seg
    if addr = "NotInCodeSeg" then some { st with lineNum := st.lineNum + 1 }
    else
      match indexOfInstGo st.addr2Bytes addr rest 0 with
      | none => none
      | some (startIdx, m) =>
        let endIdx := indexOfComment rest
        if startIdx < endIdx then
          let instElems := addr :: ((rest.drop startIdx).take (endIdx - startIdx))
          some { text := st.text ++ [(st.lineNum, joinWithSpace instElems)],
                 addr2Bytes := m, lineNum := st.lineNum + 1 }
        else some { st with addr2Bytes := m, lineNum := st.lineNum + 1 }

/-- Embedding of `ControlFlowGraphBuilder.extractTextSeg` over the listing's lines. -/
def extractTextSeg (lines : List String) : Option ExtractState :=
  lines.foldlM extractLine { }

/-! ## Aggregation of same-address lines (`aggregate`) -/

/-- Embedding of `ControlFlowGraphBuilder.isHeaderInfo`. -/
def isHeaderInfo (sameAddrInsts : List String) : Bool :=
  sameAddrInsts.any fun inst =>
    pyStartsWith inst ("_text segment") || subStr inst (".mmx")

/-- The regular expression `.+=.+ ptr .+` under `re.match` semantics: some
prefix of the string decomposes as one or more non-newline characters, `=`,
one or more non-newline characters, `" ptr "`, and at least one further
non-newline character. -/
def ptrPatternMatch (s : String) : Bool :=
  let l := s.toList
  let noNL := fun (cs : List Char) => cs.all (fun c => c ≠ '\n')
  (List.range l.length).any fun i =>
    decide (1 ≤ i) && ((l.drop i).take 1 == ['=']) && noNL (l.take i) &&
      ((List.range l.length).any fun j =>
        decide (i + 2 ≤ j) && (" ptr ").toList.isPrefixOf (l.drop j) &&
          noNL ((l.take j).drop (i + 1)) &&
          (match (l.drop (j + 5)).head? with
           | some c => decide (c ≠ '\n')
           | none => false))

/-- Classification of one line inside the `aggregate` loop: the first-match-
wins chain of `if` tests, in source order.  `discarded` covers procedure
markers, `public` / `assume`, `endp` / `ends`, and label-only lines;
`dataDecl` covers pointer equates and `dw` / `dd` / `db` / `dt` / `unicode`
data definitions; the rest are valid-instruction candidates. -/
inductive LineClass : Type where
  | discarded
  | dataDecl
  | valid
deriving DecidableEq

/-- The classification chain of the `aggregate` loop body. -/
def classifyLine (inst : String) : LineClass :=
  if subStr inst ("proc near") || subStr inst ("proc far") then .discarded
  else if subStr inst ("public") then .discarded
  else if subStr inst ("assume") then .discarded
  else if subStr inst ("endp") || subStr inst ("ends") then .discarded
  else if subStr inst (" = ") || ptrPatternMatch inst then .dataDecl
  else if pyStartsWith inst ("dw ") || subStr inst (" dw ") then .dataDecl
  else if pyStartsWith inst ("dd ") || subStr inst (" dd ") then .dataDecl
  else if pyStartsWith inst ("db ") || subStr inst (" db ") then .dataDecl
  else if pyStartsWith inst ("dt ") || subStr inst (" dt ") then .dataDecl
  else if pyStartsWith inst ("unicode ") then .dataDecl
  else if pyEndsWithChar inst ':' then .discarded
  else .valid

/-- Embedding of `ControlFlowGraphBuilder.aggregate`, returning the value stored into
`self.program[addrStr]`.  The loop accumulates the valid-instruction
candidates and the concatenated data-declaration fragment exactly as the
source chain does (`classifyLine` is that chain); the three result branches
follow.  The `appendRawString` bookkeeping does not influence this value. -/
def aggregate (sameAddrInsts : List String) : String :=
  if isHeaderInfo sameAddrInsts then (sameAddrInsts.getLastD (""))
  else
    let acc := sameAddrInsts.foldl (fun (acc : List String × String) inst =>
      match classifyLine inst with
      | .discarded => acc
      | .dataDecl => (acc.1, acc.2 ++ inst ++ " ")
      | .valid => (acc.1 ++ [inst], acc.2)) ([], "")
    let validInst := acc.1
    let foundDataDeclare := acc.2
    if validInst.length = 1 then
      pyRstrip (validInst.headD ("") ++ " " ++ foundDataDeclare) [' ']
    else if 0 < (pyRstrip foundDataDeclare [' ']).length then
      pyRstrip foundDataDeclare [' ']
    else
      pyRstrip (validInst.foldl (fun progLine inst =>
        progLine ++ pyRstrip inst ['\n', '\\'] ++ " ") "") [' ']

/-! ## Decoding pass (`buildInsts`) -/

/-- State of `buildInsts`: the ordered address-to-instruction map and the
running `prevAddr` / `programStart` / `programEnd` trackers. -/
structure BuildState : Type where
  addr2Inst : List (Int × Instruction) := []
  prevAddr : Int := -1
  programStart : Int := -1
  programEnd : Int := -1
deriving DecidableEq

/-- One iteration of the `buildInsts` loop on a `(addr, line)` entry of the
normalized program: the external decoder `dec` models
`instBuilder.createInst(addr + ' ' + line)`; rejected entries are skipped,
accepted ones back-fill the previous instruction's size and are recorded. -/
def buildStep (dec : String → Option Instruction) (st : BuildState)
    (entry : String × String) : BuildState :=
  match dec (entry.1 ++ " " ++ entry.2) with
  | none => st
  | some inst =>
    let st :=
      if st.prevAddr ≠ -1 then
        let m := modifyAssoc st.addr2Inst st.prevAddr
          fun i => { i with size := inst.address - st.prevAddr }
        { st with addr2Inst := m }
      else st
    let st := { st with addr2Inst := setAssoc st.addr2Inst inst.address inst }
    let st :=
      if st.programStart = -1 then { st with programStart := inst.address } else st
    { st with programEnd := max inst.address st.programEnd, prevAddr := inst.address }

/-- Embedding of `ControlFlowGraphBuilder.buildInsts`: fold the decoder over the program
entries, then give the last accepted instruction the default size 2 (the
`prevAddr > 0` guard is the source's; when no instruction was accepted only a
log entry is made). -/
def buildInsts (dec : String → Option Instruction)
    (program : List (String × String)) : BuildState :=
  let st := program.foldl (buildStep dec) { }
  if st.prevAddr > 0 then
    let m := modifyAssoc st.addr2Inst st.prevAddr fun i => { i with size := 2 }
    { st with addr2Inst := m }
  else st

/-- The instructions the decoder accepts, in the order the normalized program
presents them. -/
def acceptedInsts (dec : String → Option Instruction)
    (program : List (String × String)) : List Instruction :=
  program.filterMap fun entry => dec (entry.1 ++ " " ++ entry.2)

/-! ## Control-flow visitor (`visitInsts` and the category handlers) -/

/-- State threaded through the visitor pass: the decoded index, the auxiliary
index for synthetic instructions, the byte / raw-string annotations and
`programEnd`.  `enterTrace` is a ghost field recording the target address of
every `enter` invocation, in order; no other definition reads it. -/
structure VisitState : Type where
  addr2Inst : List (Int × Instruction) := []
  addr2InstAux : List (Int × Instruction) := []
  addr2Bytes : List (Int × List String) := []
  addr2RawStr : List (Int × List String) := []
  programEnd : Int := -1
  enterTrace : List Int := []
deriving DecidableEq

/-- Embedding of `ControlFlowGraphBuilder.addAuxilaryInst`: insert-if-absent into the
auxiliary index, with `start` set and `fallThrough` cleared. -/
def addAuxilaryInst (st : VisitState) (addr : Int) (operandName : String) : VisitState :=
  if (lookupA st.addr2InstAux addr).isSome then st
  else
    let auxInst := { mkInstruction addr operandName with
                     start := true, fallThrough := false }
    { st with addr2InstAux := setAssoc st.addr2InstAux addr auxInst }

/-- Embedding of `ControlFlowGraphBuilder.enter`: classify a control-transfer target and
mark the appropriate instruction as a block start (or synthesize an auxiliary
extern / interrupt / invalid instruction). -/
def enter (st : VisitState) (inst : Instruction) (enterAddr : Int) : VisitState :=
  let st := { st with enterTrace := st.enterTrace ++ [enterAddr] }
  if enterAddr = FakeCalleeAddr then
    addAuxilaryInst st enterAddr ("extrn_sym")
  else if 0 ≤ enterAddr ∧ enterAddr < 256 then
    addAuxilaryInst st enterAddr ("softirq_" ++ pyHexUpper enterAddr.toNat)
  else if (lookupA st.addr2Inst enterAddr).isNone then
    if inst.operand = "call" ∨ inst.operand = "syscall" then
      addAuxilaryInst st enterAddr ("extrn_sym")
    else
      let st := addAuxilaryInst st InvalidAddr ("invalid")
      let m := modifyAssoc st.addr2Inst inst.address
        fun i => { i with branchTo := some InvalidAddr }
      { st with addr2Inst := m }
  else
    let m := modifyAssoc st.addr2Inst enterAddr fun i => { i with start := true }
    { st with addr2Inst := m }

/-- Embedding of `ControlFlowGraphBuilder.branch`: conditional jump; record the branch
target and enter both it and the fall-through address. -/
def branch (st : VisitState) (inst : Instruction) : VisitState :=
  let branchToAddr := inst.addrInInst
  let m := modifyAssoc st.addr2Inst inst.address
    fun i => { i with branchTo := some branchToAddr }
  let st := { st with addr2Inst := m }
  let st := enter st inst branchToAddr
  enter st inst (inst.address + inst.size)

/-- Embedding of `ControlFlowGraphBuilder.call`: set the call flag, record the (possibly
fake) callee address and enter it. -/
def call (st : VisitState) (inst : Instruction) : VisitState :=
  let m := modifyAssoc st.addr2Inst inst.address fun i => { i with call := true }
  let st := { st with addr2Inst := m }
  let callAddr := inst.addrInInst
  let m2 := modifyAssoc st.addr2Inst inst.address
    fun i => { i with branchTo := some callAddr }
  let st := { st with addr2Inst := m2 }
  enter st inst callAddr

/-- Embedding of `ControlFlowGraphBuilder.jump`: unconditional jump; clear `fallThrough`,
record the target and enter both it and the following address. -/
def jump (st : VisitState) (inst : Instruction) : VisitState :=
  let jumpAddr := inst.addrInInst
  let m := modifyAssoc st.addr2Inst inst.address
    fun i => { i with fallThrough := false }
  let st := { st with addr2Inst := m }
  let m2 := modifyAssoc st.addr2Inst inst.address
    fun i => { i with branchTo := some jumpAddr }
  let st := { st with addr2Inst := m2 }
  let st := enter st inst jumpAddr
  enter st inst (inst.address + inst.size)

/-- Embedding of `ControlFlowGraphBuilder.end` (`endH` since `end` is reserved): stop fall
through, entering the next address while it is inside the program range. -/
def endH (st : VisitState) (inst : Instruction) : VisitState :=
  let m := modifyAssoc st.addr2Inst inst.address
    fun i => { i with fallThrough := false }
  let st := { st with addr2Inst := m }
  if inst.address + inst.size ≤ st.programEnd then
    enter st inst (inst.address + inst.size)
  else st

/-- Modelled from the spec: `inst.accept(visitor)` double-dispatch, routed to
the category handlers `visitCalling` / `visitConditionalJump` /
`visitUnconditionalJump` / `visitEndHere` / `visitDefault`. -/
def acceptInst (st : VisitState) (inst : Instruction) : VisitState :=
  match inst.category with
  | .calling => call st inst
  | .conditionalJump => branch st inst
  | .unconditionalJump => jump st inst
  | .endHere => endH st inst
  | .defaultCat => st

/-- One iteration of the `visitInsts` loop at a key of the decoded index:
dispatch the handler, then attach the recorded bytes and raw strings. -/
def visitOne (st : VisitState) (addr : Int) : VisitState :=
  match lookupA st.addr2Inst addr with
  | none => st
  | some inst =>
    let st := acceptInst st inst
    let st :=
      match lookupA st.addr2Bytes addr with
      | some bs =>
        let m := modifyAssoc st.addr2Inst addr fun i => { i with bytes := bs }
        { st with addr2Inst := m }
      | none => st
    match lookupA st.addr2RawStr addr with
    | some rs =>
      let m := modifyAssoc st.addr2Inst addr fun i => { i with rawStrs := rs }
      { st with addr2Inst := m }
    | none => st

/-- Python `addr2Inst.update(addr2InstAux)`: fold the auxiliary bindings into
the main index, overwriting on key collision. -/
def updateMerge (m aux : List (Int × Instruction)) : List (Int × Instruction) :=
  aux.foldl (fun m kv => setAssoc m kv.1 kv.2) m

/-- Embedding of `ControlFlowGraphBuilder.visitInsts`: visit every key of the decoded
index (the handlers never insert into it, so the key list is fixed), then
merge the auxiliary instructions in. -/
def visitInsts (st : VisitState) : VisitState :=
  let st2 := (st.addr2Inst.map Prod.fst).foldl visitOne st
  { st2 with addr2Inst := updateMerge st2.addr2Inst st2.addr2InstAux }

/-! ## Block assembly (`connectBlocks`) -/

/-- Embedding of `ControlFlowGraphBuilder.getBlockAtAddr`: look up or lazily create the
block starting (and initially ending) at an address; returns the block and
the possibly extended map. -/
def getBlockAtAddr (m : List (Int × Block)) (addr : Int) : Block × List (Int × Block) :=
  match lookupA m addr with
  | some b => (b, m)
  | none =>
    let b : Block := { startAddr := addr, endAddr := addr }
    (b, setAssoc m addr b)

/-- State of the `connectBlocks` loop: the block map and the current block,
tracked by its start address (every block reaches the map through
`getBlockAtAddr`, which keys it by its `startAddr`, so Python's object
aliasing becomes read-modify-write on the map). -/
structure ConnectState : Type where
  addr2Block : List (Int × Block) := []
  curr : Option Int := none
deriving DecidableEq

/-- The start address of the block that is current while one instruction is
processed: a fresh block at the instruction's own address when no block is
open or the instruction is a block start, otherwise the inherited one. -/
def currKeyAt (st : ConnectState) (addr : Int) (inst : Instruction) : Int :=
  match st.curr with
  | none => addr
  | some c => if inst.start = true then addr else c

/-- Guarded edge insertion: append a successor only when it is not already a
member of the block's `edgeList` (the membership test of the source). -/
def appendEdgeIfAbsent (m : List (Int × Block)) (k t : Int) : List (Int × Block) :=
  modifyAssoc m k fun b =>
    if t ∈ b.edgeList then b else { b with edgeList := b.edgeList ++ [t] }

/-- The `branchTo` part of the `connectBlocks` loop body: create the target
block, add the branch edge guarded by membership, and for call instructions
additionally add the guarded reverse (return-approximation) edge. -/
def connectBranchEdges (m : List (Int × Block)) (currKey : Int) (inst : Instruction) :
    List (Int × Block) :=
  match inst.branchTo with
  | none => m
  | some t =>
    let m := (getBlockAtAddr m t).2
    let m := appendEdgeIfAbsent m currKey t
    if inst.call = true then appendEdgeIfAbsent m t currKey else m

/-- The opening of the `connectBlocks` loop body: make the block at the
instruction's own address current (creating it lazily) when no block is open
or the instruction is a block start. -/
def connectOpen (st : ConnectState) (addr : Int) (inst : Instruction) :
    List (Int × Block) :=
  match st.curr with
  | none => (getBlockAtAddr st.addr2Block addr).2
  | some _ =>
    if inst.start = true then (getBlockAtAddr st.addr2Block addr).2
    else st.addr2Block

/-- The fall-through part of the loop body: when the next address holds an
instruction, the current one falls through, and the next one is a block
start, create the next block and append the fall-through edge — with no
membership check — returning the next current-block key and the map. -/
def connectFall (idx : List (Int × Instruction)) (m0 : List (Int × Block))
    (currKey addr : Int) (inst : Instruction) : Int × List (Int × Block) :=
  match lookupA idx (addr + inst.size) with
  | some nextInst =>
    if inst.fallThrough = true ∧ nextInst.start = true then
      let m := (getBlockAtAddr m0 (addr + inst.size)).2
      (addr + inst.size, modifyAssoc m currKey
        fun b => { b with edgeList := b.edgeList ++ [addr + inst.size] })
    else (currKey, m0)
  | none => (currKey, m0)

/-- One iteration of the `connectBlocks` loop on the sorted instruction pair
`(addr, inst)`: open a block when needed, add the (unguarded) fall-through
edge when the next instruction exists and is a block start, add the guarded
branch / reverse-call edges, then append the instruction to the current
block.  The source's final `self.addr2Block[currBlock.startAddr] = currBlock`
re-binds the same object and is a no-op in this explicit-state model. -/
def connectStep (idx : List (Int × Instruction)) (st : ConnectState)
    (addr : Int) (inst : Instruction) : ConnectState :=
  let currKey := currKeyAt st addr inst
  let m0 := connectOpen st addr inst
  let fall := connectFall idx m0 currKey addr inst
  let m2 := connectBranchEdges fall.2 currKey inst
  let m3 := modifyAssoc m2 currKey fun b =>
    { b with instList := b.instList ++ [inst], endAddr := max b.endAddr inst.address }
  { addr2Block := m3, curr := some fall.1 }

/-- Insertion into a key-sorted association list. -/
def insertSortedByKey (p : Int × Instruction) :
    List (Int × Instruction) → List (Int × Instruction)
  | [] => [p]
  | q :: rest => if p.1 ≤ q.1 then p :: q :: rest else q :: insertSortedByKey p rest

/-- Python `sorted(d.items())` for a map with pairwise distinct keys: sort
the bindings by key. -/
def sortByKey (l : List (Int × Instruction)) : List (Int × Instruction) :=
  l.foldr insertSortedByKey []

/-- Embedding of `ControlFlowGraphBuilder.connectBlocks`: fold the loop body over the
instruction bindings in ascending address order. -/
def connectBlocks (addr2Inst : List (Int × Instruction)) : List (Int × Block) :=
  let sortedInsts := sortByKey addr2Inst
  (sortedInsts.foldl (fun st p => connectStep sortedInsts st p.1 p.2) { }).addr2Block

/-- Embedding of `ControlFlowGraphBuilder.parseBlocks`: second pass, visiting then
connecting. -/
def parseBlocks (st : VisitState) : List (Int × Block) :=
  connectBlocks (visitInsts st).addr2Inst

/-! ## Spec-side definitions (stated in the words of the specification, to be
compared with the source embeddings above) -/

/-- Spec-side: all consecutive 4-token windows of a token stream, in order
(sliding window of size 4, advancing one token at a time). -/
def windows4 : List String → List (List String)
  | [] => []
  | x :: rest =>
    if rest.length < 3 then [] else (x :: rest.take 3) :: windows4 rest

/-- Spec-side: the per-block attribute vector described by the spec — the
elementwise sum over the instructions of operand, operator and
special-character encodings, plus the byte-unigram and byte-4-gram histograms
counted once per block, followed by the out-degree and the instruction
count. -/
def Block.getAttributesSpec (dOp dOpr dSp : Nat) (b : Block) : List Int :=
  let base := b.instList.foldl (fun acc inst =>
    List.zipWith (fun x y => x + y) acc
      (inst.operandFeatures ++ inst.operatorFeatures ++
        List.replicate (Block.oneGram.length + Block.fourGram.length) 0 ++
        inst.specialCharFeatures))
    (List.replicate (Block.instDim dOp dOpr dSp) 0)
  List.zipWith (fun x y => x + y) base
    (List.replicate (dOp + dOpr) 0 ++ b.get1gramFeatures ++ b.get4gramFeatures ++
      List.replicate dSp 0)
    ++ [(b.edgeList.length : Int), (b.instList.length : Int)]

/-- Spec-side: the address-keyed instruction map in which every instruction's
size is the address delta to the next accepted instruction and the last
instruction's size is 2. -/
def sizedChain : List Instruction → List (Int × Instruction)
  | [] => []
  | [i] => [(i.address, { i with size := 2 })]
  | i :: j :: rest =>
    (i.address, { i with size := j.address - i.address }) :: sizedChain (j :: rest)

/-- The same map before the final default-size fix: the last instruction
still carries the size the decoder gave it. -/
def sizedChain0 : List Instruction → List (Int × Instruction)
  | [] => []
  | [i] => [(i.address, i)]
  | i :: j :: rest =>
    (i.address, { i with size := j.address - i.address }) :: sizedChain0 (j :: rest)

/-! ## Association-list lemmas -/

theorem lookupA_modifyAssoc {α : Type} (m : List (Int × α)) (k : Int) (f : α → α)
    (j : Int) :
    lookupA (modifyAssoc m k f) j =
      if j = k then (lookupA m j).map f else lookupA m j := by
  induction m with
  | nil => simp [modifyAssoc, lookupA]
  | cons p rest ih =>
    obtain ⟨a, x⟩ := p
    simp only [modifyAssoc, lookupA]
    by_cases hak : a = k
    · subst hak
      by_cases hja : j = a
      · subst hja
        simp [lookupA]
      · simp [lookupA, hja, Ne.symm hja]
    · by_cases hja : j = a
      · subst hja
        simp [lookupA, hak]
      · simp [lookupA, hak, hja, Ne.symm hja, ih]

theorem lookupA_setAssoc {α : Type} (m : List (Int × α)) (k : Int) (v : α)
    (j : Int) :
    lookupA (setAssoc m k v) j = if j = k then some v else lookupA m j := by
  induction m with
  | nil =>
    by_cases hj : j = k
    · subst hj
      simp [setAssoc, lookupA]
    · simp [setAssoc, lookupA, hj, Ne.symm hj]
  | cons p rest ih =>
    obtain ⟨a, x⟩ := p
    simp only [setAssoc, lookupA]
    by_cases hak : a = k
    · subst hak
      by_cases hja : j = a
      · subst hja
        simp [lookupA]
      · simp [lookupA, hja, Ne.symm hja]
    · by_cases hja : j = a
      · subst hja
        simp [lookupA, hak]
      · simp [lookupA, hak, hja, Ne.symm hja, ih]

theorem setAssoc_absent {α : Type} (m : List (Int × α)) (k : Int) (v : α)
    (h : lookupA m k = none) : setAssoc m k v = m ++ [(k, v)] := by
  induction m with
  | nil => simp [setAssoc]
  | cons p rest ih =>
    obtain ⟨a, x⟩ := p
    by_cases hak : a = k
    · simp [lookupA, hak] at h
    · simp [lookupA, hak] at h
      simp [setAssoc, hak, ih h]

/-! ## Claim C9: idempotence of block creation and auxiliary insertion -/

/-- C9: requesting the block at an already-created start address returns the
stored block with the map unchanged (no duplicate node), and inserting an
auxiliary instruction at an address already present in the auxiliary index
leaves that index — indeed the whole visitor state — unchanged. -/
theorem getBlockAtAddr_addAuxilaryInst_idempotent
    (m : List (Int × Block)) (addr : Int) (b : Block)
    (st : VisitState) (a : Int) (nm : String) (i : Instruction)
    (hb : lookupA m addr = some b) (hi : lookupA st.addr2InstAux a = some i) :
    getBlockAtAddr m addr = (b, m) ∧ addAuxilaryInst st a nm = st := by
  constructor
  · unfold getBlockAtAddr
    rw [hb]
  · unfold addAuxilaryInst
    rw [hi]
    simp

theorem getBlockAtAddr_addAuxilaryInst_idempotent_witness :
    getBlockAtAddr [((5 : Int), { startAddr := 5, endAddr := 5 : Block })] 5 =
      ({ startAddr := 5, endAddr := 5 : Block },
       [((5 : Int), { startAddr := 5, endAddr := 5 : Block })]) ∧
    addAuxilaryInst
      { addr2InstAux := [(FakeCalleeAddr, mkInstruction FakeCalleeAddr ("extrn_sym"))] }
      FakeCalleeAddr ("extrn_sym") =
      { addr2InstAux := [(FakeCalleeAddr, mkInstruction FakeCalleeAddr ("extrn_sym"))] } :=
  getBlockAtAddr_addAuxilaryInst_idempotent _ _ _ _ _ _
    (mkInstruction FakeCalleeAddr ("extrn_sym")) (by decide) (by decide)

/-! ## Claim C4: `enter` on an unresolved, non-interrupt, non-extern target -/

/-- C4: for a visited instruction whose resolved target is not
`FakeCalleeAddr`, not in `[0, 256)` and absent from the decoded index, a
non-call-like classification makes `enter` redirect the instruction's
`branchTo` to the `InvalidAddr` sentinel and idempotently insert the
auxiliary `invalid` instruction at `InvalidAddr`; a call-like classification
instead inserts (idempotently) an auxiliary extern-symbol instruction at the
target address, leaving the decoded index untouched. -/
theorem enter_unresolved_target
    (st : VisitState) (inst : Instruction) (t : Int)
    (h1 : t ≠ FakeCalleeAddr) (h2 : ¬(0 ≤ t ∧ t < 256))
    (h3 : lookupA st.addr2Inst t = none) :
    ((inst.operand ≠ "call" ∧ inst.operand ≠ "syscall") →
      (enter st inst t).addr2Inst =
        modifyAssoc st.addr2Inst inst.address
          (fun i => { i with branchTo := some InvalidAddr }) ∧
      (enter st inst t).addr2InstAux =
        (if (lookupA st.addr2InstAux InvalidAddr).isSome then st.addr2InstAux
         else st.addr2InstAux ++
           [(InvalidAddr, { mkInstruction InvalidAddr ("invalid") with
                            start := true, fallThrough := false })])) ∧
    ((inst.operand = "call" ∨ inst.operand = "syscall") →
      (enter st inst t).addr2Inst = st.addr2Inst ∧
      (enter st inst t).addr2InstAux =
        (if (lookupA st.addr2InstAux t).isSome then st.addr2InstAux
         else st.addr2InstAux ++
           [(t, { mkInstruction t ("extrn_sym") with
                  start := true, fallThrough := false })])) := by
  constructor
  · rintro ⟨hc, hs⟩
    cases hx : lookupA st.addr2InstAux InvalidAddr with
    | some i =>
      simp [enter, addAuxilaryInst, h1, h2, h3, hc, hs, hx]
    | none =>
      simp [enter, addAuxilaryInst, h1, h2, h3, hc, hs, hx,
            setAssoc_absent _ _ _ hx]
  · intro hc
    cases hx : lookupA st.addr2InstAux t with
    | some i =>
      rcases hc with h | h <;>
        simp [enter, addAuxilaryInst, h1, h2, h3, h, hx]
    | none =>
      rcases hc with h | h <;>
        simp [enter, addAuxilaryInst, h1, h2, h3, h, hx,
              setAssoc_absent _ _ _ hx]

theorem enter_unresolved_target_witness :
    (enter
        { addr2Inst := [((4096 : Int),
            { address := 4096, size := 2, operand := "jz",
              category := InstCategory.conditionalJump, addrInInst := 9999 : Instruction })] }
        { address := 4096, size := 2, operand := "jz",
          category := InstCategory.conditionalJump, addrInInst := 9999 } 9999).addr2Inst =
      modifyAssoc
        [((4096 : Int),
            { address := 4096, size := 2, operand := "jz",
              category := InstCategory.conditionalJump, addrInInst := 9999 : Instruction })]
        4096 (fun i => { i with branchTo := some InvalidAddr }) ∧
    (enter
        { addr2Inst := [((4096 : Int),
            { address := 4096, size := 2, operand := "jz",
              category := InstCategory.conditionalJump, addrInInst := 9999 : Instruction })] }
        { address := 4096, size := 2, operand := "jz",
          category := InstCategory.conditionalJump, addrInInst := 9999 } 9999).addr2InstAux =
      (if (lookupA ([] : List (Int × Instruction)) InvalidAddr).isSome then
         ([] : List (Int × Instruction))
       else [] ++
         [(InvalidAddr, { mkInstruction InvalidAddr ("invalid") with
                          start := true, fallThrough := false })]) :=
  (enter_unresolved_target _ _ _ (by decide) (by decide) (by decide)).1
    (by constructor <;> decide)

/-! ## Claim C6: enter invocations of the conditional / unconditional jump
handlers -/

theorem addAuxilaryInst_enterTrace (st : VisitState) (a : Int) (nm : String) :
    (addAuxilaryInst st a nm).enterTrace = st.enterTrace := by
  unfold addAuxilaryInst
  split <;> rfl

theorem addAuxilaryInst_addr2Inst (st : VisitState) (a : Int) (nm : String) :
    (addAuxilaryInst st a nm).addr2Inst = st.addr2Inst := by
  unfold addAuxilaryInst
  split <;> rfl

theorem enter_enterTrace (st : VisitState) (inst : Instruction) (a : Int) :
    (enter st inst a).enterTrace = st.enterTrace ++ [a] := by
  unfold enter
  split_ifs <;> simp [apply_ite, addAuxilaryInst_enterTrace]

theorem map_fallThrough_modify (m : List (Int × Instruction)) (x k : Int)
    (f : Instruction → Instruction)
    (hf : ∀ i, (f i).fallThrough = i.fallThrough) :
    (lookupA (modifyAssoc m x f) k).map Instruction.fallThrough =
      (lookupA m k).map Instruction.fallThrough := by
  rw [lookupA_modifyAssoc]
  by_cases hk : k = x
  · subst hk
    simp only [if_true]
    cases lookupA m k <;> simp [hf]
  · simp [hk]

theorem enter_fallThrough_map (st : VisitState) (inst : Instruction) (a k : Int) :
    (lookupA (enter st inst a).addr2Inst k).map Instruction.fallThrough =
      (lookupA st.addr2Inst k).map Instruction.fallThrough := by
  unfold enter
  split_ifs <;>
    simp only [apply_ite, addAuxilaryInst_addr2Inst] <;>
    (try split) <;>
    first
    | rfl
    | exact map_fallThrough_modify _ _ _ _ (fun i => rfl)

/-- C6: visiting a conditional jump invokes `enter` exactly twice, on the
branch target and on the instruction's address plus its size, leaving the
instruction's `fallThrough` unchanged; visiting an unconditional jump invokes
`enter` on exactly the same two addresses, with the instruction's
`fallThrough` cleared. -/
theorem branch_jump_enter_invocations (st : VisitState) (inst : Instruction) :
    (branch st inst).enterTrace =
      st.enterTrace ++ [inst.addrInInst, inst.address + inst.size] ∧
    (lookupA (branch st inst).addr2Inst inst.address).map Instruction.fallThrough =
      (lookupA st.addr2Inst inst.address).map Instruction.fallThrough ∧
    (jump st inst).enterTrace =
      st.enterTrace ++ [inst.addrInInst, inst.address + inst.size] ∧
    (lookupA (jump st inst).addr2Inst inst.address).map Instruction.fallThrough =
      (lookupA st.addr2Inst inst.address).map (fun _ => false) := by
  refine ⟨?_, ?_, ?_, ?_⟩
  · simp only [branch]
    rw [enter_enterTrace, enter_enterTrace]
    simp
  · simp only [branch]
    rw [enter_fallThrough_map, enter_fallThrough_map]
    exact map_fallThrough_modify _ _ _ _ (fun i => rfl)
  · simp only [jump]
    rw [enter_enterTrace, enter_enterTrace]
    simp
  · simp only [jump]
    rw [enter_fallThrough_map, enter_fallThrough_map]
    simp only [lookupA_modifyAssoc, if_pos rfl]
    cases lookupA st.addr2Inst inst.address <;> rfl

/-! ## Claim C2: segment filtering in `extractTextSeg` -/

/-- C2 (amended): a raw listing line whose segment label starts with none of
the prefixes in the fixed `segNames` list is silently skipped — the scan
continues with only the line counter advanced, and the line contributes
nothing to the normalized text or the byte map. -/
theorem extractLine_skips_unrecognized_segment
    (st : ExtractState) (line : String) (seg : String) (rest : List String)
    (hsplit : pySplit line = seg :: rest)
    (hseg : addrInCodeSegment seg = "NotInCodeSeg") :
    extractLine st line = some { st with lineNum := st.lineNum + 1 } := by
  unfold extractLine
  rw [hsplit]
  simp [hseg]

theorem extractLine_skips_unrecognized_segment_witness :
    extractLine { } ("junkseg:00401000 55 push ebp") =
      some { text := [], addr2Bytes := [], lineNum := 2 } :=
  extractLine_skips_unrecognized_segment
    { } ("junkseg:00401000 55 push ebp") ("junkseg:00401000")
    ["55", "push", "ebp"] (by decide) (by decide)

/-- C2 (counterexample): a line in the `.data` segment — a data segment, in
the allow-list `segNames` — is not skipped: it produces a normalized text
entry and a recorded byte, so the claim that every data/relocation/resource
segment line is dropped is false. -/
theorem data_segment_line_not_skipped :
    extractTextSeg [".data:00401000 55 push ebp"] =
      some { text := [(1, "00401000 push ebp")],
             addr2Bytes := [(4198400, ["55"])], lineNum := 2 } ∧
    addrInCodeSegment (".data:00401000") = "00401000" := by
  constructor
  · decide
  · decide

/-! ## Concrete visitor states for the block-assembly counterexamples -/

/-- A three-instruction program: a call at `0x1000` to `0x1004`, a default
instruction at `0x1002`, and its fall-through target `0x1004`. -/
def stC1 : VisitState :=
  { addr2Inst :=
      [((4096 : Int),
        { address := 4096, size := 2, operand := "call",
          category := InstCategory.calling, addrInInst := 4100 }),
       ((4098 : Int),
        { address := 4098, size := 2, operand := "mov",
          category := InstCategory.defaultCat }),
       ((4100 : Int),
        { address := 4100, size := 2, operand := "mov",
          category := InstCategory.defaultCat })],
    programEnd := 4100 }

/-- A two-instruction program without any call: a conditional jump at
`0x1000` to the absent target `9999` and a default instruction at `0x1002`. -/
def stC10 : VisitState :=
  { addr2Inst :=
      [((4096 : Int),
        { address := 4096, size := 2, operand := "jz",
          category := InstCategory.conditionalJump, addrInInst := 9999 }),
       ((4098 : Int),
        { address := 4098, size := 2, operand := "mov",
          category := InstCategory.defaultCat })],
    programEnd := 4098 }

/-! ## Claim C1: de-duplication of `edgeList` -/

theorem getBlockAtAddr_snd (m : List (Int × Block)) (t : Int) :
    (getBlockAtAddr m t).2 =
      if (lookupA m t).isSome then m
      else setAssoc m t { startAddr := t, endAddr := t } := by
  unfold getBlockAtAddr
  cases lookupA m t <;> rfl

/-- C1 (counterexample): on `stC1` the block at `0x1000` receives the edge to
`0x1004` twice — once from the membership-guarded branch insertion for the
call, and once from the unguarded fall-through insertion at `0x1002` — so an
`edgeList` can contain the same successor address twice. -/
theorem fallthrough_edge_duplicated :
    (lookupA (parseBlocks stC1) 4096).map Block.edgeList = some [4100, 4100] ∧
    ¬ ([(4100 : Int), 4100].Nodup) := by
  constructor
  · decide
  · decide

/-- C1 (amended): the branch and reverse call-return edge insertions of the
assembly loop do check membership first, so they preserve duplicate-freeness
of every block's `edgeList`; only the fall-through insertion appends without
a check (see the counterexample). -/
theorem connectBranchEdges_preserves_nodup
    (m : List (Int × Block)) (currKey : Int) (inst : Instruction)
    (h : ∀ a b, lookupA m a = some b → b.edgeList.Nodup) :
    ∀ a b, lookupA (connectBranchEdges m currKey inst) a = some b →
      b.edgeList.Nodup := by
  have hget : ∀ (m : List (Int × Block)) (t : Int),
      (∀ a b, lookupA m a = some b → b.edgeList.Nodup) →
      ∀ a b, lookupA (getBlockAtAddr m t).2 a = some b → b.edgeList.Nodup := by
    intro m t hm a b hb
    rw [getBlockAtAddr_snd] at hb
    by_cases hx : (lookupA m t).isSome
    · rw [if_pos hx] at hb
      exact hm a b hb
    · rw [if_neg hx] at hb
      rw [lookupA_setAssoc] at hb
      by_cases hat : a = t
      · rw [if_pos hat] at hb
        cases hb
        simp
      · rw [if_neg hat] at hb
        exact hm a b hb
  have happ : ∀ (m : List (Int × Block)) (k t : Int),
      (∀ a b, lookupA m a = some b → b.edgeList.Nodup) →
      ∀ a b, lookupA (appendEdgeIfAbsent m k t) a = some b → b.edgeList.Nodup := by
    intro m k t hm a b hb
    unfold appendEdgeIfAbsent at hb
    rw [lookupA_modifyAssoc] at hb
    by_cases hak : a = k
    · rw [if_pos hak] at hb
      cases hx : lookupA m a with
      | some blk =>
        rw [hx] at hb
        simp only [Option.map_some'] at hb
        by_cases hmem : t ∈ blk.edgeList
        · rw [if_pos hmem] at hb
          injection hb with hb
          subst hb
          exact hm a blk hx
        · rw [if_neg hmem] at hb
          injection hb with hb
          subst hb
          refine List.Nodup.append (hm a blk hx) (by simp) ?_
          intro x hx1 hx2
          simp only [List.mem_singleton] at hx2
          subst hx2
          exact hmem hx1
      | none =>
        rw [hx] at hb
        simp at hb
    · rw [if_neg hak] at hb
      exact hm a b hb
  unfold connectBranchEdges
  cases inst.branchTo with
  | none => exact h
  | some t =>
    simp only
    by_cases hc : inst.call = true
    · rw [if_pos hc]
      exact happ _ _ _ (happ _ _ _ (hget _ _ h))
    · rw [if_neg hc]
      exact happ _ _ _ (hget _ _ h)

theorem connectBranchEdges_preserves_nodup_witness :
    ({ startAddr := 5, endAddr := 5, instList := [],
       edgeList := [(0 : Int)] : Block }).edgeList.Nodup :=
  connectBranchEdges_preserves_nodup
    [((0 : Int), { startAddr := 0, endAddr := 0 : Block })] 0
    { address := 0, branchTo := some 5, call := true }
    (by
      intro a b hb
      by_cases ha : (0 : Int) = a
      · rw [lookupA, if_pos ha] at hb
        cases hb
        simp
      · rw [lookupA, if_neg ha, lookupA] at hb
        cases hb)
    5 _ (by decide)

/-! ## Claim C10: auxiliary sentinel instructions and their blocks' edges -/

/-- Every binding of an auxiliary index has the freshly-created sentinel
shape: block start, no fall through, no recorded branch target. -/
def AuxGood (aux : List (Int × Instruction)) : Prop :=
  ∀ a i, lookupA aux a = some i →
    i.start = true ∧ i.fallThrough = false ∧ i.branchTo = none

theorem addAuxilaryInst_addr2InstAux (st : VisitState) (a0 : Int) (nm : String) :
    (addAuxilaryInst st a0 nm).addr2InstAux =
      if (lookupA st.addr2InstAux a0).isSome then st.addr2InstAux
      else setAssoc st.addr2InstAux a0
        { mkInstruction a0 nm with start := true, fallThrough := false } := by
  unfold addAuxilaryInst
  split_ifs <;> rfl

theorem auxGood_addAuxilaryInst (st : VisitState) (a0 : Int) (nm : String)
    (h : AuxGood st.addr2InstAux) :
    AuxGood (addAuxilaryInst st a0 nm).addr2InstAux := by
  intro a i hi
  rw [addAuxilaryInst_addr2InstAux] at hi
  by_cases hc : (lookupA st.addr2InstAux a0).isSome
  · rw [if_pos hc] at hi
    exact h a i hi
  · rw [if_neg hc] at hi
    rw [lookupA_setAssoc] at hi
    by_cases ha : a = a0
    · rw [if_pos ha] at hi
      injection hi with hi
      subst hi
      exact ⟨rfl, rfl, rfl⟩
    · rw [if_neg ha] at hi
      exact h a i hi

theorem auxGood_enter (st : VisitState) (inst : Instruction) (a : Int)
    (h : AuxGood st.addr2InstAux) : AuxGood (enter st inst a).addr2InstAux := by
  simp only [enter]
  split_ifs <;>
    first
    | exact h
    | exact auxGood_addAuxilaryInst _ _ _ h

theorem auxGood_acceptInst (st : VisitState) (inst : Instruction)
    (h : AuxGood st.addr2InstAux) : AuxGood (acceptInst st inst).addr2InstAux := by
  cases hc : inst.category with
  | calling =>
    simp only [acceptInst, hc, call]
    exact auxGood_enter _ _ _ h
  | conditionalJump =>
    simp only [acceptInst, hc, branch]
    exact auxGood_enter _ _ _ (auxGood_enter _ _ _ h)
  | unconditionalJump =>
    simp only [acceptInst, hc, jump]
    exact auxGood_enter _ _ _ (auxGood_enter _ _ _ h)
  | endHere =>
    simp only [acceptInst, hc, endH]
    split
    · exact auxGood_enter _ _ _ h
    · exact h
  | defaultCat =>
    simp only [acceptInst, hc]
    exact h

theorem visitOne_addr2InstAux (st : VisitState) (k : Int) :
    (visitOne st k).addr2InstAux =
      match lookupA st.addr2Inst k with
      | none => st.addr2InstAux
      | some inst => (acceptInst st inst).addr2InstAux := by
  simp only [visitOne]
  split
  · rfl
  · split
    · split <;> rfl
    · split <;> rfl

theorem auxGood_visitOne (st : VisitState) (k : Int)
    (h : AuxGood st.addr2InstAux) : AuxGood (visitOne st k).addr2InstAux := by
  rw [visitOne_addr2InstAux]
  cases hx : lookupA st.addr2Inst k with
  | none => exact h
  | some inst => exact auxGood_acceptInst st inst h

theorem auxGood_foldl_visitOne (keys : List Int) (st : VisitState)
    (h : AuxGood st.addr2InstAux) :
    AuxGood (keys.foldl visitOne st).addr2InstAux := by
  induction keys generalizing st with
  | nil => exact h
  | cons k rest ih => exact ih _ (auxGood_visitOne st k h)

/-- C10 (amended): in a visitor run started with an empty auxiliary index,
every auxiliary sentinel instruction is created with `start = true` and
`fallThrough = false`, and — since the category handlers never touch the
auxiliary index, which is merged into the main index only after the loop —
its `branchTo` is still unset when `visitInsts` finishes.  (The further claim
that a sentinel block then acquires outgoing edges only through reverse
call-return edges is refuted by `sentinel_block_gains_noncall_edges`.) -/
theorem visitInsts_aux_fields (st : VisitState) (h0 : st.addr2InstAux = [])
    (a : Int) (i : Instruction)
    (hi : lookupA (visitInsts st).addr2InstAux a = some i) :
    i.start = true ∧ i.fallThrough = false ∧ i.branchTo = none := by
  have hg : AuxGood st.addr2InstAux := by
    rw [h0]
    intro a i hi
    simp [lookupA] at hi
  exact auxGood_foldl_visitOne (st.addr2Inst.map Prod.fst) st hg a i hi

theorem visitInsts_aux_fields_witness :
    ({ mkInstruction InvalidAddr ("invalid") with
       start := true, fallThrough := false } : Instruction).start = true ∧
    ({ mkInstruction InvalidAddr ("invalid") with
       start := true, fallThrough := false } : Instruction).fallThrough = false ∧
    ({ mkInstruction InvalidAddr ("invalid") with
       start := true, fallThrough := false } : Instruction).branchTo = none :=
  visitInsts_aux_fields stC10 rfl InvalidAddr _ (by decide)

/-- C10 (counterexample): in `stC10` no instruction is ever call-classified —
after the visitor pass every decoded instruction still has `call = false`, so
block assembly adds no reverse call-return edge anywhere — yet the sentinel
block at `InvalidAddr` ends up with the outgoing edges `[4098, InvalidAddr]`:
the decoded instruction at `0x1000` is grouped into the sentinel's block and
contributes its fall-through and branch edges to it. -/
theorem sentinel_block_gains_noncall_edges :
    (∀ p ∈ (visitInsts stC10).addr2Inst, p.2.call = false) ∧
    (lookupA (parseBlocks stC10) InvalidAddr).map Block.edgeList =
      some [4098, InvalidAddr] := by
  constructor
  · decide
  · decide

/-! ## Claim C7: data-declaration-only aggregation -/

/-- The data-declaration lines among the raw lines at one address, in
order. -/
def dataDecls (insts : List String) : List String :=
  insts.filter fun i => classifyLine i == LineClass.dataDecl

/-- The valid-instruction candidates among the raw lines at one address. -/
def validCands (insts : List String) : List String :=
  insts.filter fun i => classifyLine i == LineClass.valid

/-- Concatenation with one trailing space per element, as
`foundDataDeclare` accumulates it. -/
def concatTrailSpace : List String → String
  | [] => ""
  | d :: rest => d ++ " " ++ concatTrailSpace rest

theorem rstripChars_append_space (l : List Char) :
    rstripChars (l ++ [' ']) [' '] = rstripChars l [' '] := by
  unfold rstripChars
  rw [List.reverse_append]
  simp [List.dropWhile]

theorem pyRstrip_append_space (s : String) :
    pyRstrip (s ++ " ") [' '] = pyRstrip s [' '] := by
  unfold pyRstrip
  congr 1
  have h : (s ++ " ").toList = s.toList ++ [' '] := by
    cases s
    rfl
  rw [h]
  exact rstripChars_append_space _

theorem aggregate_fold_characterization (insts : List String) (v : List String)
    (f : String) :
    insts.foldl (fun (acc : List String × String) inst =>
      match classifyLine inst with
      | .discarded => acc
      | .dataDecl => (acc.1, acc.2 ++ inst ++ " ")
      | .valid => (acc.1 ++ [inst], acc.2)) (v, f) =
    (v ++ validCands insts, f ++ concatTrailSpace (dataDecls insts)) := by
  induction insts generalizing v f with
  | nil => simp [validCands, concatTrailSpace, dataDecls]
  | cons i rest ih =>
    cases hc : classifyLine i with
    | discarded =>
      simp only [List.foldl_cons, hc]
      rw [ih]
      simp [validCands, dataDecls, hc]
    | dataDecl =>
      simp only [List.foldl_cons, hc]
      rw [ih]
      simp only [validCands, dataDecls, List.filter_cons, hc]
      simp [concatTrailSpace, String.append_assoc]
    | valid =>
      simp only [List.foldl_cons, hc]
      rw [ih]
      simp [validCands, dataDecls, hc]

theorem concatTrailSpace_eq_join (decls : List String) (h : decls ≠ []) :
    concatTrailSpace decls = joinWithSpace decls ++ " " := by
  induction decls with
  | nil => exact absurd rfl h
  | cons d rest ih =>
    cases rest with
    | nil => simp [concatTrailSpace, joinWithSpace]
    | cons e tail =>
      simp only [concatTrailSpace, joinWithSpace] at ih ⊢
      rw [ih (by simp)]
      simp [String.append_assoc]

theorem pyRstrip_length_zero (s : String) (h : (pyRstrip s [' ']).length = 0) :
    pyRstrip s [' '] = "" := by
  cases hx : pyRstrip s [' '] with
  | mk data =>
    rw [hx] at h
    simp [String.length] at h
    rw [h]

/-- C7: when the raw lines sharing one address leave no valid-instruction
candidate but at least one data-declaration line, the aggregated program text
is exactly the in-order, space-joined concatenation of the data-declaration
lines with trailing spaces stripped. -/
theorem aggregate_data_declarations_only
    (insts : List String)
    (hh : isHeaderInfo insts = false)
    (hv : validCands insts = [])
    (hd : dataDecls insts ≠ []) :
    aggregate insts = pyRstrip (joinWithSpace (dataDecls insts)) [' '] := by
  unfold aggregate
  rw [hh]
  simp only [Bool.false_eq_true, if_false]
  rw [aggregate_fold_characterization insts [] ("")]
  simp only [hv, List.nil_append, List.append_nil]
  have hjoin : pyRstrip ("" ++ concatTrailSpace (dataDecls insts)) [' '] =
      pyRstrip (joinWithSpace (dataDecls insts)) [' '] := by
    rw [concatTrailSpace_eq_join _ hd]
    have : ("" : String) ++ (joinWithSpace (dataDecls insts) ++ " ") =
        joinWithSpace (dataDecls insts) ++ " " := by
      simp
    rw [this]
    exact pyRstrip_append_space _
  simp only [List.length_nil]
  rw [if_neg (by decide)]
  by_cases hl : 0 < (pyRstrip ("" ++ concatTrailSpace (dataDecls insts)) [' ']).length
  · rw [if_pos hl]
    exact hjoin
  · rw [if_neg hl]
    have h0 : pyRstrip ("" ++ concatTrailSpace (dataDecls insts)) [' '] = "" :=
      pyRstrip_length_zero _ (by omega)
    rw [← hjoin, h0]
    simp [List.foldl_nil]
    rfl

theorem aggregate_data_declarations_only_witness :
    aggregate ["dd 1", "dd 2"] = "dd 1 dd 2" := by
  rw [aggregate_data_declarations_only ["dd 1", "dd 2"] (by decide) (by decide)
    (by decide)]
  decide

/-! ## Claim C3: instruction sizes from the decoding pass -/

/-- The last element of a list of addresses, with a default (the shape of the
`prevAddr` tracker: `-1` until the first accepted instruction). -/
def lastAddrD : List Int → Int → Int
  | [], d => d
  | x :: rest, _ => lastAddrD rest x

theorem lastAddrD_concat (l : List Int) (x d : Int) :
    lastAddrD (l ++ [x]) d = x := by
  induction l generalizing d with
  | nil => rfl
  | cons a rest ih => exact ih a

theorem lastAddrD_mem : ∀ (l : List Int) (d : Int), l ≠ [] → lastAddrD l d ∈ l := by
  intro l
  induction l with
  | nil =>
    intro d h
    exact absurd rfl h
  | cons a rest ih =>
    intro d _
    rcases hr : rest with _ | ⟨b, tl⟩
    · subst hr
      simp [lastAddrD]
    · subst hr
      exact List.mem_cons_of_mem a (ih a (by simp))

theorem sizedChain0_snoc (acc : List Instruction) (inst : Instruction)
    (hpw : List.Pairwise (fun x y => x < y)
      ((acc ++ [inst]).map Instruction.address)) :
    sizedChain0 (acc ++ [inst]) =
      setAssoc (modifyAssoc (sizedChain0 acc)
          (lastAddrD (acc.map Instruction.address) (-1))
          (fun i => { i with size :=
            inst.address - lastAddrD (acc.map Instruction.address) (-1) }))
        inst.address inst := by
  induction acc with
  | nil => rfl
  | cons a acc2 ih =>
    rcases hacc : acc2 with _ | ⟨b, tl⟩
    · subst hacc
      have hne : a.address ≠ inst.address := by
        simp only [List.cons_append, List.nil_append, List.map_cons, List.map_nil,
          List.pairwise_cons] at hpw
        exact ne_of_lt (hpw.1 inst.address (by simp))
      show sizedChain0 [a, inst] = _
      have hlast : lastAddrD ([a].map Instruction.address) (-1) = a.address := rfl
      rw [hlast]
      unfold sizedChain0
      unfold modifyAssoc
      rw [if_pos rfl]
      unfold setAssoc
      rw [if_neg hne]
      rfl
    · subst hacc
      have hpw2 : List.Pairwise (fun x y => x < y)
          (((b :: tl) ++ [inst]).map Instruction.address) := by
        simp only [List.cons_append, List.map_cons, List.pairwise_cons] at hpw ⊢
        exact hpw.2
      have hrec := ih hpw2
      have hLmem : lastAddrD ((b :: tl).map Instruction.address) (-1) ∈
          (b :: tl).map Instruction.address :=
        lastAddrD_mem _ _ (by simp)
      have hbelow : ∀ y ∈ ((b :: tl) ++ [inst]).map Instruction.address,
          a.address < y := by
        simp only [List.cons_append, List.map_cons, List.pairwise_cons] at hpw
        exact hpw.1
      have haneL : a.address ≠ lastAddrD ((b :: tl).map Instruction.address) (-1) := by
        refine ne_of_lt (hbelow _ ?_)
        simp only [List.map_append, List.mem_append]
        left
        exact hLmem
      have hanei : a.address ≠ inst.address := by
        refine ne_of_lt (hbelow _ ?_)
        simp
      have hgl : lastAddrD ((a :: b :: tl).map Instruction.address) (-1) =
          lastAddrD ((b :: tl).map Instruction.address) (-1) := rfl
      rw [hgl]
      have hhead : sizedChain0 (a :: ((b :: tl) ++ [inst])) =
          (a.address, { a with size := b.address - a.address }) ::
            sizedChain0 ((b :: tl) ++ [inst]) := by
        rfl
      show sizedChain0 (a :: ((b :: tl) ++ [inst])) = _
      rw [hhead]
      have hchain0 : sizedChain0 (a :: b :: tl) =
          (a.address, { a with size := b.address - a.address }) ::
            sizedChain0 (b :: tl) := rfl
      rw [hchain0]
      unfold modifyAssoc
      rw [if_neg haneL]
      unfold setAssoc
      rw [if_neg hanei]
      rw [hrec]

theorem sizedChain_fix (l : List Instruction)
    (hpw : List.Pairwise (fun x y => x < y) (l.map Instruction.address))
    (hne : l ≠ []) :
    modifyAssoc (sizedChain0 l) (lastAddrD (l.map Instruction.address) (-1))
      (fun i => { i with size := 2 }) = sizedChain l := by
  induction l with
  | nil => exact absurd rfl hne
  | cons a rest ih =>
    rcases hr : rest with _ | ⟨b, tl⟩
    · subst hr
      show modifyAssoc (sizedChain0 [a]) a.address _ = sizedChain [a]
      unfold sizedChain0 modifyAssoc sizedChain
      rw [if_pos rfl]
    · subst hr
      have hpw2 : List.Pairwise (fun x y => x < y)
          ((b :: tl).map Instruction.address) := by
        simp only [List.map_cons, List.pairwise_cons] at hpw ⊢
        exact hpw.2
      have hLmem : lastAddrD ((b :: tl).map Instruction.address) (-1) ∈
          (b :: tl).map Instruction.address :=
        lastAddrD_mem _ _ (by simp)
      have haneL : a.address ≠ lastAddrD ((b :: tl).map Instruction.address) (-1) := by
        simp only [List.map_cons, List.pairwise_cons] at hpw
        exact ne_of_lt (hpw.1 _ hLmem)
      have hgl : lastAddrD ((a :: b :: tl).map Instruction.address) (-1) =
          lastAddrD ((b :: tl).map Instruction.address) (-1) := rfl
      rw [hgl]
      have hchain0 : sizedChain0 (a :: b :: tl) =
          (a.address, { a with size := b.address - a.address }) ::
            sizedChain0 (b :: tl) := rfl
      have hchain : sizedChain (a :: b :: tl) =
          (a.address, { a with size := b.address - a.address }) ::
            sizedChain (b :: tl) := rfl
      rw [hchain0, hchain]
      unfold modifyAssoc
      rw [if_neg haneL]
      rw [ih hpw2 (by simp)]

theorem acceptedInsts_cons (dec : String → Option Instruction)
    (e : String × String) (rest : List (String × String)) :
    acceptedInsts dec (e :: rest) =
      match dec (e.1 ++ " " ++ e.2) with
      | none => acceptedInsts dec rest
      | some inst => inst :: acceptedInsts dec rest := by
  simp only [acceptedInsts, List.filterMap_cons]
  cases dec (e.1 ++ " " ++ e.2) <;> rfl

theorem buildStep_some (dec : String → Option Instruction) (st : BuildState)
    (e : String × String) (inst : Instruction)
    (hde : dec (e.1 ++ " " ++ e.2) = some inst) :
    (buildStep dec st e).addr2Inst =
      setAssoc (if st.prevAddr ≠ -1 then
          modifyAssoc st.addr2Inst st.prevAddr
            (fun i => { i with size := inst.address - st.prevAddr })
        else st.addr2Inst) inst.address inst ∧
    (buildStep dec st e).prevAddr = inst.address := by
  simp only [buildStep, hde]
  refine ⟨?_, ?_⟩
  · split_ifs <;> rfl
  · trivial

theorem buildInsts_foldl_spec (dec : String → Option Instruction) :
    ∀ (program : List (String × String)) (acc : List Instruction) (st : BuildState),
    st.addr2Inst = sizedChain0 acc →
    st.prevAddr = lastAddrD (acc.map Instruction.address) (-1) →
    List.Pairwise (fun x y => x < y)
      ((acc ++ acceptedInsts dec program).map Instruction.address) →
    (∀ i ∈ acc ++ acceptedInsts dec program, 0 < i.address) →
    (program.foldl (buildStep dec) st).addr2Inst =
      sizedChain0 (acc ++ acceptedInsts dec program) ∧
    (program.foldl (buildStep dec) st).prevAddr =
      lastAddrD ((acc ++ acceptedInsts dec program).map Instruction.address) (-1) := by
  intro program
  induction program with
  | nil =>
    intro acc st hmap hprev hpw hpos
    simp only [acceptedInsts, List.filterMap_nil, List.append_nil, List.foldl_nil]
    exact ⟨hmap, hprev⟩
  | cons e rest ih =>
    intro acc st hmap hprev hpw hpos
    rw [List.foldl_cons]
    cases hde : dec (e.1 ++ " " ++ e.2) with
    | none =>
      have hacc : acceptedInsts dec (e :: rest) = acceptedInsts dec rest := by
        rw [acceptedInsts_cons, hde]
      rw [hacc] at hpw hpos ⊢
      have hstep : buildStep dec st e = st := by
        simp only [buildStep, hde]
      rw [hstep]
      exact ih acc st hmap hprev hpw hpos
    | some inst =>
      have hacc : acceptedInsts dec (e :: rest) = inst :: acceptedInsts dec rest := by
        rw [acceptedInsts_cons, hde]
      rw [hacc] at hpw hpos ⊢
      have hassoc : acc ++ inst :: acceptedInsts dec rest =
          (acc ++ [inst]) ++ acceptedInsts dec rest := by
        simp
      rw [hassoc] at hpw hpos ⊢
      obtain ⟨hm, hp⟩ := buildStep_some dec st e inst hde
      have hpw1 : List.Pairwise (fun x y => x < y)
          ((acc ++ [inst]).map Instruction.address) := by
        refine List.Pairwise.sublist ?_ hpw
        exact List.Sublist.map _ (List.sublist_append_left _ _)
      have hmap2 : (buildStep dec st e).addr2Inst = sizedChain0 (acc ++ [inst]) := by
        rw [hm, hmap, hprev]
        by_cases haccne : acc = []
        · subst haccne
          rw [if_neg (by simp [lastAddrD])]
          rfl
        · have hmemla : lastAddrD (acc.map Instruction.address) (-1) ∈
              acc.map Instruction.address :=
            lastAddrD_mem _ _ (by simpa using haccne)
          have hla_pos : 0 < lastAddrD (acc.map Instruction.address) (-1) := by
            rcases List.mem_map.mp hmemla with ⟨i, hi, hia⟩
            rw [← hia]
            exact hpos i (by simp [hi])
          rw [if_pos (by omega)]
          exact (sizedChain0_snoc acc inst hpw1).symm
      have hprev2 : (buildStep dec st e).prevAddr =
          lastAddrD ((acc ++ [inst]).map Instruction.address) (-1) := by
        rw [hp, List.map_append]
        simp only [List.map_cons, List.map_nil]
        rw [lastAddrD_concat]
      exact ih (acc ++ [inst]) _ hmap2 hprev2 hpw hpos

/-- C3 (amended): when the accepted instructions appear in strictly
increasing address order and all addresses are positive, the decoded index is
exactly `sizedChain`: every accepted instruction except the last carries the
address delta to the next accepted instruction as its size, and the last
carries the default size 2.  (The normalizer can present addresses out of
order, in which case the back-filling follows iteration order instead, and
the address-order statement fails — see the counterexample.) -/
theorem buildInsts_sizes (dec : String → Option Instruction)
    (program : List (String × String))
    (hchain : List.Chain' (fun x y => x < y)
      ((acceptedInsts dec program).map Instruction.address))
    (hpos : ∀ i ∈ acceptedInsts dec program, 0 < i.address)
    (hne : acceptedInsts dec program ≠ []) :
    (buildInsts dec program).addr2Inst = sizedChain (acceptedInsts dec program) := by
  have hpw : List.Pairwise (fun x y => x < y)
      ((acceptedInsts dec program).map Instruction.address) :=
    List.chain'_iff_pairwise.mp hchain
  obtain ⟨hm, hp⟩ := buildInsts_foldl_spec dec program [] { } rfl rfl
    (by simpa using hpw) (by simpa using hpos)
  have hmemla : lastAddrD ((acceptedInsts dec program).map Instruction.address) (-1) ∈
      (acceptedInsts dec program).map Instruction.address :=
    lastAddrD_mem _ _ (by simpa using hne)
  have hla_pos : 0 < lastAddrD ((acceptedInsts dec program).map Instruction.address) (-1) := by
    rcases List.mem_map.mp hmemla with ⟨i, hi, hia⟩
    rw [← hia]
    exact hpos i hi
  simp only [List.nil_append] at hm hp
  simp only [buildInsts, apply_ite]
  rw [hm, hp]
  rw [if_pos (by omega)]
  exact sizedChain_fix _ hpw hne

/-- Modelled from the spec: a concrete instance of the external decoder
interface `decode(address, text) -> Instruction | reject`, used only to
exercise the decoding pass on explicit inputs: it parses the leading
hexadecimal address token and accepts everything else with default fields. -/
def decSimple : String → Option Instruction := fun s =>
  match pySplit s with
  | a :: _ => (pyIntHex a).map fun n => { address := n, operand := "mov" }
  | [] => none

theorem buildInsts_sizes_witness :
    (buildInsts decSimple [(("1000"), ("mov eax")), (("1002"), ("ret"))]).addr2Inst =
      sizedChain (acceptedInsts decSimple
        [(("1000"), ("mov eax")), (("1002"), ("ret"))]) :=
  buildInsts_sizes decSimple _
    (by
      have h : (acceptedInsts decSimple
          [(("1000"), ("mov eax")), (("1002"), ("ret"))]).map Instruction.address =
          [4096, 4098] := by decide
      rw [h]
      simp)
    (by decide) (by decide)

/-- C3 (counterexample): a normalized program presenting address `0x100`
before address `0x50`.  In address order the first accepted instruction
(at 80) should get size `256 - 80 = 176` and the last (at 256) size 2; the
code instead back-fills in iteration order, leaving size 2 at address 80 and
size `-176` at address 256. -/
theorem buildInsts_out_of_order_sizes :
    (lookupA (buildInsts decSimple
        [(("100"), ("mov eax")), (("50"), ("mov ebx"))]).addr2Inst 80).map
      Instruction.size = some 2 ∧
    (lookupA (buildInsts decSimple
        [(("100"), ("mov eax")), (("50"), ("mov ebx"))]).addr2Inst 256).map
      Instruction.size = some (-176) ∧
    ((2 : Int) ≠ 256 - 80) ∧ ((-176 : Int) ≠ 2) := by
  refine ⟨?_, ?_, ?_, ?_⟩ <;> decide

/-! ## Claim C8: n-gram histograms counted once per block -/

theorem zipAdd_assoc (a b c : List Int) :
    List.zipWith (fun x y => x + y) (List.zipWith (fun x y => x + y) a b) c =
      List.zipWith (fun x y => x + y) a (List.zipWith (fun x y => x + y) b c) := by
  induction a generalizing b c with
  | nil => simp
  | cons x a2 ih =>
    cases b with
    | nil => simp
    | cons y b2 =>
      cases c with
      | nil => simp
      | cons z c2 => simp [ih, add_assoc]

theorem zipAdd_comm (a b : List Int) :
    List.zipWith (fun x y => x + y) a b = List.zipWith (fun x y => x + y) b a := by
  induction a generalizing b with
  | nil => cases b <;> simp
  | cons x a2 ih =>
    cases b with
    | nil => simp
    | cons y b2 => simp [ih, add_comm]

theorem foldl_zipAdd_pull (F : Instruction → List Int) (l : List Instruction)
    (z g : List Int) :
    l.foldl (fun acc i => List.zipWith (fun x y => x + y) acc (F i))
        (List.zipWith (fun x y => x + y) z g) =
      List.zipWith (fun x y => x + y)
        (l.foldl (fun acc i => List.zipWith (fun x y => x + y) acc (F i)) z) g := by
  induction l generalizing z with
  | nil => rfl
  | cons i rest ih =>
    simp only [List.foldl_cons]
    have hswap : List.zipWith (fun x y => x + y)
        (List.zipWith (fun x y => x + y) z g) (F i) =
        List.zipWith (fun x y => x + y)
          (List.zipWith (fun x y => x + y) z (F i)) g := by
      rw [zipAdd_assoc, zipAdd_assoc, zipAdd_comm g (F i)]
    rw [hswap]
    exact ih _

theorem foldl_length_const {β : Type} (f : List Int → β → List Int)
    (hf : ∀ acc x, (f acc x).length = acc.length) :
    ∀ (l : List β) (v : List Int), (l.foldl f v).length = v.length := by
  intro l
  induction l with
  | nil =>
    intro v
    rfl
  | cons x restl ih =>
    intro v
    rw [List.foldl_cons, ih, hf]

theorem check4Gram_length (w : List String) (f : List Int) :
    (Block.check4Gram w f).length = f.length := by
  unfold Block.check4Gram
  cases Block.fourGram2Idx (String.join w) <;> simp

theorem get1gram_length (b : Block) :
    b.get1gramFeatures.length = Block.oneGram.length := by
  unfold Block.get1gramFeatures
  rw [foldl_length_const]
  · simp
  · intro acc byte
    simp only
    cases Block.oneGram2Idx (pyRstrip byte ['\n', '+']) <;> simp

theorem gram4Loop_length : ∀ (rest window : List String) (f : List Int),
    (Block.gram4Loop rest window f).length = f.length := by
  intro rest
  induction rest with
  | nil =>
    intro window f
    unfold Block.gram4Loop
    split_ifs <;> simp [check4Gram_length]
  | cons byte rest2 ih =>
    intro window f
    unfold Block.gram4Loop
    split_ifs <;> rw [ih] <;> simp [check4Gram_length]

theorem get4gram_length (b : Block) :
    b.get4gramFeatures.length = Block.fourGram.length := by
  unfold Block.get4gramFeatures
  rw [gram4Loop_length]
  simp

theorem windows4_short (l : List String) (h : l.length < 4) : windows4 l = [] := by
  cases l with
  | nil => rfl
  | cons x rest =>
    unfold windows4
    rw [if_pos]
    simp only [List.length_cons] at h
    omega

theorem windows4_length (l : List String) : (windows4 l).length = l.length - 3 := by
  induction l with
  | nil => rfl
  | cons x rest ih =>
    unfold windows4
    split_ifs with h
    · simp only [List.length_nil, List.length_cons]
      omega
    · simp only [List.length_cons, ih]
      omega

theorem gram4Loop_windows : ∀ (rest window : List String) (f : List Int),
    window.length ≤ 4 →
    Block.gram4Loop rest window f =
      (windows4 (window ++ rest)).foldl (fun f w => Block.check4Gram w f) f := by
  intro rest
  induction rest with
  | nil =>
    intro window f hw
    rw [List.append_nil]
    unfold Block.gram4Loop
    by_cases h4 : window.length = 4
    · rw [if_pos h4]
      rcases window with _ | ⟨a, _ | ⟨b, _ | ⟨c, _ | ⟨d, tl⟩⟩⟩⟩ <;>
        simp only [List.length_nil, List.length_cons] at h4
      · omega
      · omega
      · omega
      · omega
      · have htl : tl = [] := by
          rw [← List.length_eq_zero]
          omega
        subst htl
        rfl
    · rw [if_neg h4]
      rw [windows4_short _ (by omega)]
      rfl
  | cons byte rest2 ih =>
    intro window f hw
    unfold Block.gram4Loop
    by_cases h4 : window.length = 4
    · rw [if_pos h4]
      rw [ih (window.drop 1 ++ [byte]) (Block.check4Gram window f)
        (by simp only [List.length_append, List.length_drop, h4]; simp)]
      rcases window with _ | ⟨a, _ | ⟨b, _ | ⟨c, _ | ⟨d, tl⟩⟩⟩⟩ <;>
        simp only [List.length_nil, List.length_cons] at h4
      · omega
      · omega
      · omega
      · omega
      · have htl : tl = [] := by
          rw [← List.length_eq_zero]
          omega
        subst htl
        rfl
    · rw [if_neg h4]
      rw [ih (window ++ [byte]) f (by simp only [List.length_append]; simp; omega)]
      rw [List.append_assoc]
      rfl

theorem zipAdd_zero_left (l : List Int) (n : Nat) (h : l.length = n) :
    List.zipWith (fun x y => x + y) (List.replicate n 0) l = l := by
  induction l generalizing n with
  | nil =>
    subst h
    rfl
  | cons x rest ih =>
    subst h
    simp only [List.length_cons, List.replicate_succ, List.zipWith_cons_cons, zero_add]
    rw [ih rest.length rfl]

theorem zipAdd_zero_right (l : List Int) (n : Nat) (h : l.length = n) :
    List.zipWith (fun x y => x + y) l (List.replicate n 0) = l := by
  rw [zipAdd_comm]
  exact zipAdd_zero_left l n h

theorem zipAdd_append (a b c d : List Int) (h : a.length = c.length) :
    List.zipWith (fun x y => x + y) (a ++ b) (c ++ d) =
      List.zipWith (fun x y => x + y) a c ++ List.zipWith (fun x y => x + y) b d := by
  induction a generalizing c with
  | nil =>
    cases c with
    | nil => rfl
    | cons y c2 => simp at h
  | cons x a2 ih =>
    cases c with
    | nil => simp at h
    | cons y c2 =>
      simp only [List.length_cons] at h
      simp only [List.cons_append, List.zipWith_cons_cons]
      rw [ih c2 (by omega)]

theorem getAttributes_fold_flag (b : Block) :
    ∀ (l : List Instruction) (v : List Int),
    l.foldl (fun (acc : List Int × Bool) inst =>
      let attr := inst.operandFeatures ++ inst.operatorFeatures
      let attr :=
        if acc.2 = false then attr ++ b.get1gramFeatures ++ b.get4gramFeatures
        else attr ++ List.replicate (Block.oneGram.length + Block.fourGram.length) 0
      let attr := attr ++ inst.specialCharFeatures
      (List.zipWith (fun x y => x + y) acc.1 attr, true)) (v, true) =
    (l.foldl (fun acc inst =>
      List.zipWith (fun x y => x + y) acc
        (inst.operandFeatures ++ inst.operatorFeatures ++
          List.replicate (Block.oneGram.length + Block.fourGram.length) 0 ++
          inst.specialCharFeatures)) v, true) := by
  intro l
  induction l with
  | nil =>
    intro v
    rfl
  | cons i rest ih =>
    intro v
    simp only [List.foldl_cons]
    rw [show (if (true : Bool) = false then
        i.operandFeatures ++ i.operatorFeatures ++ b.get1gramFeatures ++
          b.get4gramFeatures
      else i.operandFeatures ++ i.operatorFeatures ++
        List.replicate (Block.oneGram.length + Block.fourGram.length) 0) =
      i.operandFeatures ++ i.operatorFeatures ++
        List.replicate (Block.oneGram.length + Block.fourGram.length) 0 from rfl]
    rw [ih]

/-- C8: for every block with at least one instruction (whose feature
encodings have the decoder's fixed widths `dOp`, `dOpr`, `dSp`), the
attribute vector equals the spec-side vector in which the byte-unigram and
byte-4-gram histograms are counted exactly once, together with the first
instruction, regardless of how many instructions the block contains; and the
4-gram histogram is exactly the fold of the window check over the
`max(0, n - 3)` consecutive 4-token windows of the block's byte stream, each
considered once. -/
theorem getAttributes_grams_once (dOp dOpr dSp : Nat) (b : Block)
    (hne : b.instList ≠ [])
    (hdim : ∀ i ∈ b.instList, i.operandFeatures.length = dOp ∧
      i.operatorFeatures.length = dOpr ∧ i.specialCharFeatures.length = dSp) :
    Block.getAttributes dOp dOpr dSp b = Block.getAttributesSpec dOp dOpr dSp b ∧
    b.get4gramFeatures =
      (windows4 b.bytesFromInsts).foldl (fun f w => Block.check4Gram w f)
        (List.replicate Block.fourGram.length 0) ∧
    (windows4 b.bytesFromInsts).length = b.bytesFromInsts.length - 3 := by
  refine ⟨?_, ?_, ?_⟩
  · obtain ⟨i0, rest, hil⟩ := List.exists_cons_of_ne_nil hne
    obtain ⟨hop, hopr, hsp⟩ := hdim i0 (by rw [hil]; exact List.mem_cons_self _ _)
    have hg1 := get1gram_length b
    have hg4 := get4gram_length b
    have hzfull : List.zipWith (fun x y => x + y)
        (List.replicate (Block.instDim dOp dOpr dSp) 0)
        (i0.operandFeatures ++ i0.operatorFeatures ++ b.get1gramFeatures ++
          b.get4gramFeatures ++ i0.specialCharFeatures) =
        i0.operandFeatures ++ i0.operatorFeatures ++ b.get1gramFeatures ++
          b.get4gramFeatures ++ i0.specialCharFeatures :=
      zipAdd_zero_left _ _ (by
        simp [Block.instDim, hop, hopr, hsp, hg1, hg4]
        omega)
    have hzz : List.zipWith (fun x y => x + y)
        (List.replicate (Block.instDim dOp dOpr dSp) 0)
        (i0.operandFeatures ++ i0.operatorFeatures ++
          List.replicate (Block.oneGram.length + Block.fourGram.length) 0 ++
          i0.specialCharFeatures) =
        i0.operandFeatures ++ i0.operatorFeatures ++
          List.replicate (Block.oneGram.length + Block.fourGram.length) 0 ++
          i0.specialCharFeatures :=
      zipAdd_zero_left _ _ (by
        simp [Block.instDim, hop, hopr, hsp]
        omega)
    have hkey : List.zipWith (fun x y => x + y)
        (i0.operandFeatures ++ i0.operatorFeatures ++
          List.replicate (Block.oneGram.length + Block.fourGram.length) 0 ++
          i0.specialCharFeatures)
        (List.replicate (dOp + dOpr) 0 ++ b.get1gramFeatures ++
          b.get4gramFeatures ++ List.replicate dSp 0) =
        i0.operandFeatures ++ i0.operatorFeatures ++ b.get1gramFeatures ++
          b.get4gramFeatures ++ i0.specialCharFeatures := by
      have e1 : i0.operandFeatures ++ i0.operatorFeatures ++
          List.replicate (Block.oneGram.length + Block.fourGram.length) (0 : Int) ++
          i0.specialCharFeatures =
          (i0.operandFeatures ++ i0.operatorFeatures) ++
          (List.replicate (Block.oneGram.length + Block.fourGram.length) (0 : Int) ++
            i0.specialCharFeatures) := by
        simp [List.append_assoc]
      have e2 : List.replicate (dOp + dOpr) (0 : Int) ++ b.get1gramFeatures ++
          b.get4gramFeatures ++ List.replicate dSp 0 =
          List.replicate (dOp + dOpr) (0 : Int) ++
          ((b.get1gramFeatures ++ b.get4gramFeatures) ++ List.replicate dSp 0) := by
        simp [List.append_assoc]
      rw [e1, e2]
      rw [zipAdd_append _ _ _ _ (by simp [hop, hopr])]
      rw [zipAdd_append _ _ _ _ (by simp [hg1, hg4])]
      rw [zipAdd_zero_right (i0.operandFeatures ++ i0.operatorFeatures) (dOp + dOpr)
        (by simp [hop, hopr])]
      rw [zipAdd_zero_left (b.get1gramFeatures ++ b.get4gramFeatures)
        (Block.oneGram.length + Block.fourGram.length) (by simp [hg1, hg4])]
      rw [zipAdd_zero_right i0.specialCharFeatures dSp hsp]
      simp [List.append_assoc]
    have hLHS : Block.getAttributes dOp dOpr dSp b =
        rest.foldl (fun acc inst =>
          List.zipWith (fun x y => x + y) acc
            (inst.operandFeatures ++ inst.operatorFeatures ++
              List.replicate (Block.oneGram.length + Block.fourGram.length) 0 ++
              inst.specialCharFeatures))
          (i0.operandFeatures ++ i0.operatorFeatures ++ b.get1gramFeatures ++
            b.get4gramFeatures ++ i0.specialCharFeatures) ++
          [(b.edgeList.length : Int), ((i0 :: rest).length : Int)] := by
      simp only [Block.getAttributes]
      rw [hil]
      simp only [List.foldl_cons]
      rw [getAttributes_fold_flag b rest]
      simp only [if_true]
      rw [hzfull]
    have hRHS : Block.getAttributesSpec dOp dOpr dSp b =
        rest.foldl (fun acc inst =>
          List.zipWith (fun x y => x + y) acc
            (inst.operandFeatures ++ inst.operatorFeatures ++
              List.replicate (Block.oneGram.length + Block.fourGram.length) 0 ++
              inst.specialCharFeatures))
          (i0.operandFeatures ++ i0.operatorFeatures ++ b.get1gramFeatures ++
            b.get4gramFeatures ++ i0.specialCharFeatures) ++
          [(b.edgeList.length : Int), ((i0 :: rest).length : Int)] := by
      simp only [Block.getAttributesSpec]
      rw [hil]
      simp only [List.foldl_cons]
      rw [← foldl_zipAdd_pull]
      rw [hzz, hkey]
    rw [hLHS, hRHS]
  · unfold Block.get4gramFeatures
    rw [gram4Loop_windows _ [] _ (by simp)]
    rw [List.nil_append]
  · exact windows4_length _

/-- A concrete two-instruction block whose byte stream contains the known
4-gram `8BFF558B`, used to exercise the feature extraction. -/
def blkW : Block :=
  { startAddr := 0, endAddr := 2,
    instList :=
      [ { address := 0, operandFeatures := [1], operatorFeatures := [2],
          specialCharFeatures := [3], bytes := ["8B", "FF"] },
        { address := 2, operandFeatures := [4], operatorFeatures := [5],
          specialCharFeatures := [6], bytes := ["55", "8B"] } ],
    edgeList := [7] }

theorem getAttributes_grams_once_witness :
    Block.getAttributes 1 1 1 blkW = Block.getAttributesSpec 1 1 1 blkW ∧
    blkW.get4gramFeatures =
      (windows4 blkW.bytesFromInsts).foldl (fun f w => Block.check4Gram w f)
        (List.replicate Block.fourGram.length 0) ∧
    (windows4 blkW.bytesFromInsts).length = blkW.bytesFromInsts.length - 3 :=
  getAttributes_grams_once 1 1 1 blkW (by decide) (by decide)

/-! ## Claim C5: reverse call-return edges -/

/-- Map evolution during block assembly: bindings persist and `edgeList`
entries are never removed. -/
def edgeMono (m m2 : List (Int × Block)) : Prop :=
  ∀ k b, lookupA m k = some b →
    ∃ b2, lookupA m2 k = some b2 ∧ ∀ e ∈ b.edgeList, e ∈ b2.edgeList

theorem edgeMono_refl (m : List (Int × Block)) : edgeMono m m :=
  fun _ b h => ⟨b, h, fun _ he => he⟩

theorem edgeMono_trans {m1 m2 m3 : List (Int × Block)}
    (h12 : edgeMono m1 m2) (h23 : edgeMono m2 m3) : edgeMono m1 m3 := by
  intro k b h
  obtain ⟨b2, h2, hs⟩ := h12 k b h
  obtain ⟨b3, h3, hs2⟩ := h23 k b2 h2
  exact ⟨b3, h3, fun e he => hs2 e (hs e he)⟩

theorem mono_getBlock (m : List (Int × Block)) (t k : Int) (b : Block)
    (h : lookupA m k = some b) :
    lookupA (getBlockAtAddr m t).2 k = some b := by
  rw [getBlockAtAddr_snd]
  split_ifs with hx
  · exact h
  · rw [lookupA_setAssoc]
    by_cases hkt : k = t
    · subst hkt
      rw [h] at hx
      simp at hx
    · rw [if_neg hkt]
      exact h

theorem edgeMono_getBlock (m : List (Int × Block)) (t : Int) :
    edgeMono m (getBlockAtAddr m t).2 :=
  fun k b h => ⟨b, mono_getBlock m t k b h, fun _ he => he⟩

theorem edgeMono_modify (m : List (Int × Block)) (x : Int) (f : Block → Block)
    (hf : ∀ b, ∀ e ∈ b.edgeList, e ∈ (f b).edgeList) :
    edgeMono m (modifyAssoc m x f) := by
  intro k b h
  rw [lookupA_modifyAssoc]
  by_cases hk : k = x
  · subst hk
    rw [h]
    exact ⟨f b, by simp, hf b⟩
  · rw [if_neg hk]
    exact ⟨b, h, fun _ he => he⟩

theorem edgeMono_appendEdge (m : List (Int × Block)) (x t : Int) :
    edgeMono m (appendEdgeIfAbsent m x t) := by
  refine edgeMono_modify m x _ (fun b e he => ?_)
  split
  · exact he
  · simp [he]

theorem isSome_of_edgeMono {m m2 : List (Int × Block)} (h : edgeMono m m2)
    (k : Int) (hk : (lookupA m k).isSome) : (lookupA m2 k).isSome := by
  cases hx : lookupA m k with
  | none =>
    rw [hx] at hk
    simp at hk
  | some b =>
    obtain ⟨b2, h2, _⟩ := h k b hx
    rw [h2]
    rfl

theorem getBlock_self (m : List (Int × Block)) (t : Int) :
    (lookupA (getBlockAtAddr m t).2 t).isSome := by
  rw [getBlockAtAddr_snd]
  split_ifs with hx
  · exact hx
  · rw [lookupA_setAssoc, if_pos rfl]
    rfl

theorem edgeMono_connectFall (idx : List (Int × Instruction))
    (m0 : List (Int × Block)) (ck a : Int) (i : Instruction) :
    edgeMono m0 (connectFall idx m0 ck a i).2 := by
  unfold connectFall
  cases lookupA idx (a + i.size) with
  | none => exact edgeMono_refl _
  | some n =>
    dsimp only
    split_ifs with h
    · exact edgeMono_trans (edgeMono_getBlock _ _)
        (edgeMono_modify _ _ _ (fun b e he => by simp [he]))
    · exact edgeMono_refl _

theorem edgeMono_branchEdges (m : List (Int × Block)) (ck : Int)
    (i : Instruction) : edgeMono m (connectBranchEdges m ck i) := by
  unfold connectBranchEdges
  cases i.branchTo with
  | none => exact edgeMono_refl _
  | some t =>
    dsimp only
    split_ifs with hcall
    · refine edgeMono_trans (edgeMono_getBlock m t) ?_
      refine edgeMono_trans (edgeMono_appendEdge _ ck t) ?_
      exact edgeMono_appendEdge _ t ck
    · exact edgeMono_trans (edgeMono_getBlock m t) (edgeMono_appendEdge _ ck t)

theorem edgeMono_connectOpen (st : ConnectState) (a : Int) (i : Instruction) :
    edgeMono st.addr2Block (connectOpen st a i) := by
  unfold connectOpen
  cases st.curr with
  | none => exact edgeMono_getBlock _ _
  | some c =>
    split_ifs with h
    · exact edgeMono_getBlock _ _
    · exact edgeMono_refl _

theorem edgeMono_connectStep (idx : List (Int × Instruction))
    (st : ConnectState) (a : Int) (i : Instruction) :
    edgeMono st.addr2Block (connectStep idx st a i).addr2Block := by
  refine edgeMono_trans (edgeMono_connectOpen st a i) ?_
  refine edgeMono_trans (edgeMono_connectFall idx _ (currKeyAt st a i) a i) ?_
  refine edgeMono_trans (edgeMono_branchEdges _ (currKeyAt st a i) i) ?_
  exact edgeMono_modify _ _ _ (fun b e he => he)

theorem edgeMono_foldl (idx l : List (Int × Instruction)) (st : ConnectState) :
    edgeMono st.addr2Block
      ((l.foldl (fun s p => connectStep idx s p.1 p.2) st).addr2Block) := by
  induction l generalizing st with
  | nil => exact edgeMono_refl _
  | cons p rest ih =>
    exact edgeMono_trans (edgeMono_connectStep idx st p.1 p.2) (ih _)

/-- The current block, when one is open, is present in the block map. -/
def InvCurr (st : ConnectState) : Prop :=
  ∀ c, st.curr = some c → (lookupA st.addr2Block c).isSome

theorem connectOpen_curr_isSome (st : ConnectState) (a : Int) (i : Instruction)
    (hInv : InvCurr st) :
    (lookupA (connectOpen st a i) (currKeyAt st a i)).isSome := by
  cases hc : st.curr with
  | none =>
    simp only [connectOpen, currKeyAt, hc]
    exact getBlock_self _ _
  | some c =>
    simp only [connectOpen, currKeyAt, hc]
    split_ifs with hs
    · exact getBlock_self _ _
    · exact hInv c hc

theorem connectFall_fst_isSome (idx : List (Int × Instruction))
    (m0 : List (Int × Block)) (ck a : Int) (i : Instruction)
    (hck : (lookupA m0 ck).isSome) :
    (lookupA (connectFall idx m0 ck a i).2 (connectFall idx m0 ck a i).1).isSome := by
  unfold connectFall
  cases lookupA idx (a + i.size) with
  | none => exact hck
  | some n =>
    dsimp only
    split_ifs with h
    · refine isSome_of_edgeMono (edgeMono_modify _ _ _ (fun b e he => by simp [he])) _ ?_
      exact getBlock_self _ _
    · exact hck

theorem invCurr_connectStep (idx : List (Int × Instruction))
    (st : ConnectState) (a : Int) (i : Instruction) (hInv : InvCurr st) :
    InvCurr (connectStep idx st a i) := by
  intro c hc
  have hc2 : c = (connectFall idx (connectOpen st a i) (currKeyAt st a i) a i).1 := by
    simpa [connectStep] using hc.symm
  subst hc2
  have h1 := connectFall_fst_isSome idx (connectOpen st a i) (currKeyAt st a i) a i
    (connectOpen_curr_isSome st a i hInv)
  have h2 := isSome_of_edgeMono
    (edgeMono_branchEdges (connectFall idx (connectOpen st a i) (currKeyAt st a i) a i).2
      (currKeyAt st a i) i) _ h1
  have hm3 : (connectStep idx st a i).addr2Block =
      modifyAssoc (connectBranchEdges
        (connectFall idx (connectOpen st a i) (currKeyAt st a i) a i).2
        (currKeyAt st a i) i) (currKeyAt st a i)
      (fun b => { b with instList := b.instList ++ [i], endAddr := max b.endAddr i.address }) := rfl
  rw [hm3]
  exact isSome_of_edgeMono
    (edgeMono_modify _ (currKeyAt st a i)
      (fun b => { b with instList := b.instList ++ [i], endAddr := max b.endAddr i.address })
      (fun b e he => he)) _ h2

theorem invCurr_foldl (idx l : List (Int × Instruction)) (st : ConnectState)
    (h : InvCurr st) :
    InvCurr (l.foldl (fun s p => connectStep idx s p.1 p.2) st) := by
  induction l generalizing st with
  | nil => exact h
  | cons p rest ih =>
    exact ih _ (invCurr_connectStep idx st p.1 p.2 h)

theorem appendEdge_mem (m : List (Int × Block)) (x t : Int) (b : Block)
    (h : lookupA m x = some b) :
    ∃ b2, lookupA (appendEdgeIfAbsent m x t) x = some b2 ∧ t ∈ b2.edgeList := by
  unfold appendEdgeIfAbsent
  rw [lookupA_modifyAssoc, if_pos rfl, h]
  simp only [Option.map_some']
  refine ⟨_, rfl, ?_⟩
  split_ifs with h2
  · exact h2
  · simp

theorem connectBranchEdges_call (m : List (Int × Block)) (ck : Int)
    (i : Instruction) (t : Int) (hb : i.branchTo = some t) (hc : i.call = true)
    (hck : (lookupA m ck).isSome) :
    ∃ bt bc, lookupA (connectBranchEdges m ck i) t = some bt ∧ ck ∈ bt.edgeList ∧
      lookupA (connectBranchEdges m ck i) ck = some bc ∧ t ∈ bc.edgeList := by
  unfold connectBranchEdges
  rw [hb]
  dsimp only
  rw [if_pos hc]
  have hMck : (lookupA (getBlockAtAddr m t).2 ck).isSome :=
    isSome_of_edgeMono (edgeMono_getBlock m t) ck hck
  cases hMck0 : lookupA (getBlockAtAddr m t).2 ck with
  | none =>
    rw [hMck0] at hMck
    simp at hMck
  | some bc0 =>
    obtain ⟨bc1, hA1ck, htmem⟩ := appendEdge_mem _ ck t bc0 hMck0
    have hA1t : (lookupA (appendEdgeIfAbsent (getBlockAtAddr m t).2 ck t) t).isSome :=
      isSome_of_edgeMono (edgeMono_appendEdge _ ck t) t (getBlock_self m t)
    cases hA1t0 : lookupA (appendEdgeIfAbsent (getBlockAtAddr m t).2 ck t) t with
    | none =>
      rw [hA1t0] at hA1t
      simp at hA1t
    | some bt1 =>
      obtain ⟨bt2, hA2t, hckmem⟩ := appendEdge_mem _ t ck bt1 hA1t0
      by_cases hckt : ck = t
      · subst hckt
        exact ⟨bt2, bt2, hA2t, hckmem, hA2t, hckmem⟩
      · have hA2ck : lookupA
            (appendEdgeIfAbsent (appendEdgeIfAbsent (getBlockAtAddr m t).2 ck t) t ck) ck =
            some bc1 := by
          unfold appendEdgeIfAbsent
          rw [lookupA_modifyAssoc, if_neg hckt]
          exact hA1ck
        exact ⟨bt2, bc1, hA2t, hckmem, hA2ck, htmem⟩

theorem modify_edge_eq (m : List (Int × Block)) (x : Int) (g : Block → Block)
    (hg : ∀ b, (g b).edgeList = b.edgeList) (k : Int) (b : Block)
    (h : lookupA m k = some b) :
    ∃ b2, lookupA (modifyAssoc m x g) k = some b2 ∧ b2.edgeList = b.edgeList := by
  rw [lookupA_modifyAssoc]
  by_cases hk : k = x
  · subst hk
    rw [h]
    exact ⟨g b, by simp, hg b⟩
  · rw [if_neg hk]
    exact ⟨b, h, rfl⟩

theorem connectStep_call_edges (idx : List (Int × Instruction))
    (st : ConnectState) (a : Int) (i : Instruction) (t : Int)
    (hc : i.call = true) (hb : i.branchTo = some t) (hInv : InvCurr st) :
    ∃ bt bc,
      lookupA (connectStep idx st a i).addr2Block t = some bt ∧
        currKeyAt st a i ∈ bt.edgeList ∧
      lookupA (connectStep idx st a i).addr2Block (currKeyAt st a i) = some bc ∧
        t ∈ bc.edgeList := by
  have hck0 : (lookupA (connectOpen st a i) (currKeyAt st a i)).isSome :=
    connectOpen_curr_isSome st a i hInv
  have hck1 : (lookupA (connectFall idx (connectOpen st a i) (currKeyAt st a i) a i).2
      (currKeyAt st a i)).isSome :=
    isSome_of_edgeMono (edgeMono_connectFall idx _ (currKeyAt st a i) a i) _ hck0
  obtain ⟨bt, bc, hbt, hckm, hbc, htm⟩ :=
    connectBranchEdges_call
      (connectFall idx (connectOpen st a i) (currKeyAt st a i) a i).2
      (currKeyAt st a i) i t hb hc hck1
  have hm3 : (connectStep idx st a i).addr2Block =
      modifyAssoc (connectBranchEdges
        (connectFall idx (connectOpen st a i) (currKeyAt st a i) a i).2
        (currKeyAt st a i) i) (currKeyAt st a i)
      (fun b => { b with instList := b.instList ++ [i], endAddr := max b.endAddr i.address }) := rfl
  rw [hm3]
  obtain ⟨bt3, hbt3, hbt3e⟩ := modify_edge_eq _ (currKeyAt st a i)
    (fun b => { b with instList := b.instList ++ [i], endAddr := max b.endAddr i.address })
    (fun b => rfl) t bt hbt
  obtain ⟨bc3, hbc3, hbc3e⟩ := modify_edge_eq _ (currKeyAt st a i)
    (fun b => { b with instList := b.instList ++ [i], endAddr := max b.endAddr i.address })
    (fun b => rfl) (currKeyAt st a i) bc hbc
  refine ⟨bt3, bc3, hbt3, ?_, hbc3, ?_⟩
  · rw [hbt3e]
    exact hckm
  · rw [hbc3e]
    exact htm

/-- C5: for every instruction of the assembled stream with `call = true` and
a recorded branch target, block assembly produces both the forward edge from
the calling block (the block current when the instruction is processed) to
the block at the target address, and the reverse call-return edge from the
target block back to the calling block — and both survive to the final block
map. -/
theorem call_reverse_edge (idx l1 l2 : List (Int × Instruction)) (a : Int)
    (i : Instruction) (t : Int)
    (hs : sortByKey idx = l1 ++ (a, i) :: l2)
    (hc : i.call = true) (hb : i.branchTo = some t) :
    ∃ bt bc,
      lookupA (connectBlocks idx) t = some bt ∧
      currKeyAt (l1.foldl (fun s p => connectStep (sortByKey idx) s p.1 p.2) { }) a i ∈
        bt.edgeList ∧
      lookupA (connectBlocks idx)
        (currKeyAt (l1.foldl (fun s p => connectStep (sortByKey idx) s p.1 p.2) { }) a i) =
        some bc ∧
      t ∈ bc.edgeList := by
  have hcb : connectBlocks idx =
      ((sortByKey idx).foldl
        (fun s p => connectStep (sortByKey idx) s p.1 p.2) { }).addr2Block := rfl
  rw [hcb, hs]
  rw [List.foldl_append, List.foldl_cons]
  have hInv1 : InvCurr (l1.foldl
      (fun s p => connectStep (l1 ++ (a, i) :: l2) s p.1 p.2) { }) :=
    invCurr_foldl _ l1 { } (fun c hcc => Option.noConfusion hcc)
  obtain ⟨bt, bc, h1, h2, h3, h4⟩ := connectStep_call_edges (l1 ++ (a, i) :: l2)
    (l1.foldl (fun s p => connectStep (l1 ++ (a, i) :: l2) s p.1 p.2) { }) a i t hc hb hInv1
  have hmono := edgeMono_foldl (l1 ++ (a, i) :: l2) l2
    (connectStep (l1 ++ (a, i) :: l2)
      (l1.foldl (fun s p => connectStep (l1 ++ (a, i) :: l2) s p.1 p.2) { }) a i)
  obtain ⟨bt2, hbt2, hbt2e⟩ := hmono t bt h1
  obtain ⟨bc2, hbc2, hbc2e⟩ := hmono _ bc h3
  exact ⟨bt2, bc2, hbt2, hbt2e _ h2, hbc2, hbc2e _ h4⟩

/-- A two-binding decoded index after visiting: a call at `0x1000` to
`0x1004` (flags as the visitor leaves them) and its target, marked as a block
start. -/
def idxC5 : List (Int × Instruction) :=
  [((4096 : Int),
    { address := 4096, size := 2, operand := "call",
      category := InstCategory.calling, addrInInst := 4100,
      branchTo := some 4100, call := true }),
   ((4100 : Int),
    { address := 4100, size := 2, operand := "mov", start := true })]

theorem call_reverse_edge_witness :
    ∃ bt bc,
      lookupA (connectBlocks idxC5) 4100 = some bt ∧
      currKeyAt (([] : List (Int × Instruction)).foldl
        (fun s p => connectStep (sortByKey idxC5) s p.1 p.2) { }) 4096
        { address := 4096, size := 2, operand := "call",
          category := InstCategory.calling, addrInInst := 4100,
          branchTo := some 4100, call := true } ∈ bt.edgeList ∧
      lookupA (connectBlocks idxC5)
        (currKeyAt (([] : List (Int × Instruction)).foldl
          (fun s p => connectStep (sortByKey idxC5) s p.1 p.2) { }) 4096
          { address := 4096, size := 2, operand := "call",
            category := InstCategory.calling, addrInInst := 4100,
            branchTo := some 4100, call := true }) = some bc ∧
      (4100 : Int) ∈ bc.edgeList :=
  call_reverse_edge idxC5 []
    [((4100 : Int), { address := 4100, size := 2, operand := "mov", start := true })]
    4096
    { address := 4096, size := 2, operand := "call",
      category := InstCategory.calling, addrInInst := 4100,
      branchTo := some 4100, call := true }
    4100 (by decide) rfl rfl
